import Mathlib

/-!
Verification of the binary property-list (bplist00) reader and writer of the
`plist` repository, against its natural-language specification.

The embedding models, from the source:
  - the value model `Plist` (src/src/plist.rs as used by the stream codecs;
    the `Float`/`Date` variants are omitted because their semantics is
    IEEE-754 floating point, which is outside this shallow embedding —
    the reader branches that produce them are mapped to the distinguished
    outcome `Res.fp` below);
  - the binary writer `BinaryWriter` (src/src/stream/binary_writer.rs);
  - the binary reader `BinaryReader` (src/src/stream/binary_reader.rs).

Bytes are modelled as natural numbers (well-formed buffers hold values
below 256); Rust `String` values are modelled by their UTF-8 byte
sequences, so `String::from_utf8_lossy` composed with `str::as_bytes` is
the identity on the byte-list representation.  Machine-integer casts such
as `x as u8` are modelled by reduction modulo 2^width.

Both the writer's structural recursion over the value tree and the
reader's recursion through the offset table are modelled with an explicit
`fuel : Nat` argument (the reader's recursion is genuinely unbounded on
cyclic reference graphs; the writer's fuel only needs to exceed the value
tree's depth).  Fuel exhaustion is the distinguished outcome
`Res.nofuel`; theorems about runs are stated for every fuel that makes
the run return, so no conclusion depends on a particular fuel choice.
The loops of the source functions are modelled by list-recursive helper
functions that take the recursive call (applied to the decremented fuel)
as an explicit argument.
-/

namespace PlistModel

/-- Outcome of running a modelled Rust function.
`ok` is a normal return, `err` a returned `Err`/nom error, `panic` a Rust
panic (explicit `panic!`, out-of-bounds indexing/slicing, or arithmetic
overflow), `nofuel` exhaustion of the artificial recursion fuel of the
model, and `fp` a result that depends on IEEE-754 floating-point values,
which this embedding omits. -/
inductive Res (α : Type) where
  | ok : α → Res α
  | err : Res α
  | panic : Res α
  | nofuel : Res α
  | fp : Res α
deriving Repr, DecidableEq

/-- Sequencing of modelled results: propagate `err`/`panic`/`nofuel`/`fp`. -/
def Res.bind {α β : Type} (r : Res α) (f : α → Res β) : Res β :=
  match r with
  | .ok a => f a
  | .err => .err
  | .panic => .panic
  | .nofuel => .nofuel
  | .fp => .fp

@[simp] theorem Res.bind_ok {α β : Type} (a : α) (f : α → Res β) :
    Res.bind (.ok a) f = f a := rfl

@[simp] theorem Res.bind_err {α β : Type} (f : α → Res β) :
    Res.bind (α := α) .err f = .err := rfl

@[simp] theorem Res.bind_panic {α β : Type} (f : α → Res β) :
    Res.bind (α := α) .panic f = .panic := rfl

/-- Big-endian byte list (length `w`) of `n` truncated to `w` bytes:
models `(n as uW).to_be_bytes()`. -/
def beBytes : Nat → Nat → List Nat
  | 0, _ => []
  | w + 1, n => beBytes w (n / 256) ++ [n % 256]

/-- Big-endian value of a byte list: models assembling `be_uW`. -/
def beNat (bs : List Nat) : Nat := bs.foldl (fun a b => a * 256 + b) 0

/-- Read `w` bytes from the input as a big-endian unsigned integer,
returning the remaining input: models nom's `be_u8`/`be_u16`/`be_u32`/
`be_u64` (an error when fewer than `w` bytes remain). -/
def rdBe (w : Nat) (input : List Nat) : Res (List Nat × Nat) :=
  if w ≤ input.length then .ok (input.drop w, beNat (input.take w))
  else .err

/-- Read `k` consecutive big-endian integers of width `w` bytes: models
nom's `count(be_uW, k)` (all-or-nothing). -/
def rdBeCount (w : Nat) (k : Nat) (input : List Nat) : Res (List Nat × List Nat) :=
  match k with
  | 0 => .ok (input, [])
  | k + 1 =>
    (rdBe w input).bind fun (rest, v) =>
    (rdBeCount w k rest).bind fun (rest2, vs) =>
    .ok (rest2, v :: vs)

/-- `take(n)` from nom: split off `n` bytes or error. -/
def rdTake (n : Nat) (input : List Nat) : Res (List Nat × List Nat) :=
  if n ≤ input.length then .ok (input.drop n, input.take n)
  else .err

/-- The width selection shared by `BinaryWriter::calculate_sizes` (both for
`ref_size` against the object count and for `offset_size` against the last
offset) and by `BinaryWriter::serialize_count`. -/
def widthForCount (n : Nat) : Nat :=
  if n ≤ 0xFF then 1
  else if n ≤ 0xFFFF then 2
  else if n ≤ 0xFFFFFFFF then 4
  else 8

/-- The in-memory property-list value model (`Plist` in the source).
`Float`/`Date` are omitted (floating point; see the module comment).
Dictionary keys, strings and data payloads are byte sequences. -/
inductive Plist where
  | array : List Plist → Plist
  | dictionary : List (List Nat × Plist) → Plist
  | boolean : Bool → Plist
  | integer : Int → Plist
  | string : List Nat → Plist
  | data : List Nat → Plist
deriving Inhabited

/-! ## Binary writer (src/src/stream/binary_writer.rs) -/

/-- The mutable fields of `BinaryWriter` that the collection phase touches:
the running object counter and the reference width (`offsets` and
`offset_size` are only used by the top-level `write`). `BinaryWriter::new`
initialises `objects = 0` and `ref_size = 1`. -/
structure WSt where
  objects : Nat
  refSize : Nat
deriving Repr, DecidableEq, Inhabited

/-- One encoded object chunk (its own header/body bytes). -/
abbrev Chunk := List Nat

/-- The `mem_bytes` memo: `(object_index, serialized chunk list)` pairs in
push order, used for deduplication. -/
abbrev Memo := List (Nat × List Chunk)

/-- `BinaryWriter::serialize_ref`: a reference of `ref_size` big-endian
bytes (`index` truncated by the `as uN` cast); any other width is an
explicit `panic!`. -/
def serializeRef (refSize : Nat) (index : Nat) : Res (List Nat) :=
  match refSize with
  | 1 => .ok [index % 256]
  | 2 => .ok (beBytes 2 index)
  | 4 => .ok (beBytes 4 index)
  | 8 => .ok (beBytes 8 index)
  | _ => .panic

/-- `BinaryWriter::serialize_count`: a marker byte `(bytes_needed << 4) as
u8` followed by the minimal-width big-endian count. -/
def serializeCount (count : Nat) : List Nat :=
  let bytesNeeded := widthForCount count
  let typeByte := (bytesNeeded * 16) % 256
  typeByte :: beBytes bytesNeeded count

/-- `BinaryWriter::serialize_length`: small lengths (`< 0xF`) go into the
header's low nibble; otherwise the low nibble is `0xF` and a count record
follows. -/
def serializeLength (code len : Nat) : Nat × List Nat :=
  let objectType := code % 16
  let extraInfo := len % 16
  if len < 0xF then ((objectType * 16 + extraInfo) % 256, [])
  else ((code * 16) % 256 + 0xF, serializeCount len)

/-- `BinaryWriter::serialize_integer`: minimal of 1/2/4/8 big-endian bytes
for a non-negative value; a negative value hits `panic!("Negative integers
not implemented")`. -/
def serializeInteger (code : Nat) (value : Int) : Res (Nat × List Nat) :=
  let code := (code * 16) % 256
  if 0 ≤ value then
    let v := value.toNat
    if v ≤ 0xFF then .ok (code ||| 0x0, [v % 256])
    else if v ≤ 0xFFFF then .ok (code ||| 0x1, beBytes 2 v)
    else if v ≤ 0xFFFFFFFF then .ok (code ||| 0x2, beBytes 4 v)
    else .ok (code ||| 0x3, beBytes 8 v)
  else .panic

/-- `BinaryWriter::serialize_data`. Note the source combines the header as
`code | len` (without shifting `code` into the high nibble), so for
`code = 0x4` the emitted header byte is `0x4 | len`, not `0x40 | len`. -/
def serializeData (code : Nat) (value : List Nat) : Nat × List Nat :=
  let len := value.length
  if len < 0xF then (code ||| len % 256, [])
  else (code ||| 0x0F, serializeCount len)

/-- The type of the recursive `collect_objects` call threaded through the
loop helpers below. -/
abbrev Collector := WSt → Memo → Plist → Res (WSt × Memo × List Chunk × List Nat)

/-- The `for elem in value` loop of the `Array` arm of `serialize_object`:
collect each element with `co`, appending its reference bytes to the
parent buffer and its newly emitted chunks to the data accumulator. -/
def collectListH (co : Collector) :
    WSt → Memo → List Nat → List Chunk → List Plist →
    Res (WSt × Memo × List Nat × List Chunk)
  | st, memo, buffer, datas, [] => .ok (st, memo, buffer, datas)
  | st, memo, buffer, datas, v :: rest =>
    (co st memo v).bind fun (st', memo', data, refBytes) =>
    collectListH co st' memo' (buffer ++ refBytes) (datas ++ data) rest

/-- The first `for (key, _) in dict` loop of the `Dictionary` arm: each
key is collected as a fresh `Plist::String`. -/
def collectKeysH (co : Collector) :
    WSt → Memo → List Nat → List Chunk → List (List Nat × Plist) →
    Res (WSt × Memo × List Nat × List Chunk)
  | st, memo, buffer, datas, [] => .ok (st, memo, buffer, datas)
  | st, memo, buffer, datas, (k, _) :: rest =>
    (co st memo (.string k)).bind fun (st', memo', data, refBytes) =>
    collectKeysH co st' memo' (buffer ++ refBytes) (datas ++ data) rest

/-- The second `for (_, value) in dict` loop of the `Dictionary` arm. -/
def collectValsH (co : Collector) :
    WSt → Memo → List Nat → List Chunk → List (List Nat × Plist) →
    Res (WSt × Memo × List Nat × List Chunk)
  | st, memo, buffer, datas, [] => .ok (st, memo, buffer, datas)
  | st, memo, buffer, datas, (_, v) :: rest =>
    (co st memo v).bind fun (st', memo', data, refBytes) =>
    collectValsH co st' memo' (buffer ++ refBytes) (datas ++ data) rest

/-- `BinaryWriter::serialize_object`, with the recursive
`collect_objects` call abstracted as `co`: one self-contained chunk for
the value (containers hold the length header plus child reference bytes),
followed by the chunks newly emitted for its descendants. -/
def serializeObjectH (co : Collector) (st : WSt) (memo : Memo) (v : Plist) :
    Res (WSt × Memo × List Chunk) :=
  match v with
  | .array vs =>
    let (marker, lenBytes) := serializeLength 0xA vs.length
    (collectListH co st memo (marker :: lenBytes) [] vs).bind
      fun (st', memo', buffer, datas) => .ok (st', memo', buffer :: datas)
  | .dictionary ps =>
    let (marker, lenBytes) := serializeLength 0xD ps.length
    (collectKeysH co st memo (marker :: lenBytes) [] ps).bind
      fun (st', memo', buffer, datas) =>
    (collectValsH co st' memo' buffer datas ps).bind
      fun (st2, memo2, buffer2, datas2) => .ok (st2, memo2, buffer2 :: datas2)
  | .boolean b => .ok (st, memo, [[if b then 0x09 else 0x08]])
  | .integer n =>
    (serializeInteger 0x1 n).bind fun (marker, bytes) =>
    .ok (st, memo, [marker :: bytes])
  | .string s =>
    let (marker, lenBytes) := serializeLength 0x5 s.length
    .ok (st, memo, [marker :: (lenBytes ++ s)])
  | .data d =>
    let (marker, lenBytes) := serializeData 0x4 d
    .ok (st, memo, [marker :: (lenBytes ++ d)])

/-- `BinaryWriter::collect_objects`: reserve the next object index,
serialize the value, then either reuse a byte-identical memo entry
(rolling the counter back) or append the new entry; returns the newly
emitted chunks and the reference bytes for this occurrence. -/
def collectObjects : Nat → WSt → Memo → Plist →
    Res (WSt × Memo × List Chunk × List Nat)
  | 0, _, _, _ => .nofuel
  | fuel + 1, st, memo, v =>
    let index := st.objects
    let st1 : WSt := { st with objects := st.objects + 1 }
    (serializeObjectH (collectObjects fuel) st1 memo v).bind
      fun (st2, memo2, bytes) =>
    match memo2.find? (fun p => p.2 == bytes) with
    | some (keyIdx, _) =>
      let st3 : WSt := { st2 with objects := st2.objects - 1 }
      (serializeRef st3.refSize keyIdx).bind fun r => .ok (st3, memo2, [], r)
    | none =>
      let memo3 := memo2 ++ [(index, bytes)]
      (serializeRef st2.refSize index).bind fun r => .ok (st2, memo3, bytes, r)

/-- The 8-byte magic `"bplist00"`. -/
def magic : List Nat := [0x62, 0x70, 0x6C, 0x69, 0x73, 0x74, 0x30, 0x30]

/-- The offset-recording loop of `BinaryWriter::write` step 3: each chunk's
offset is the cursor position before writing it, plus 8 for the magic. -/
def offsetsAcc : Nat → List Chunk → List Nat
  | _, [] => []
  | pos, c :: cs => (pos + 8) :: offsetsAcc (pos + c.length) cs

/-- `BinaryWriter::generate_offset_table`: one `offset_size`-wide
big-endian entry per offset (values truncated by the `as uN` casts); an
unexpected width returns `Err` from inside the loop. -/
def generateOffsetTable (offsetSize : Nat) : List Nat → Res (List Nat)
  | [] => .ok []
  | o :: rest =>
    match (match offsetSize with
           | 1 => some [o % 256]
           | 2 => some (beBytes 2 o)
           | 4 => some (beBytes 4 o)
           | 8 => some (beBytes 8 o)
           | _ => none) with
    | some bs => (generateOffsetTable offsetSize rest).bind fun t => .ok (bs ++ t)
    | none => .err

/-- `BinaryWriter::generate_trailer`: 6 unused zero bytes, `offset_size`,
`ref_size`, then three 8-byte big-endian fields: object count, root index
and offset-table start. -/
def generateTrailer (offsetSize refSize objects rootIndex tableStart : Nat) : List Nat :=
  [0, 0, 0, 0, 0, 0, offsetSize, refSize] ++
    beBytes 8 objects ++ beBytes 8 rootIndex ++ beBytes 8 tableStart

/-- Everything `BinaryWriter::write` computes, kept for the theorems:
final object counter, memo, emitted chunks, recorded offsets, the two
widths computed by `calculate_sizes`, and the full output byte stream. -/
structure WriteTrace where
  objects : Nat
  memo : Memo
  chunks : List Chunk
  offsets : List Nat
  refSize : Nat
  offsetSize : Nat
  out : List Nat
deriving Repr, DecidableEq, Inhabited

/-- `BinaryWriter::write` over an in-memory sink (the sink itself never
fails): collect all objects, emit magic + object table, run
`calculate_sizes`, then emit the offset table and the trailer. The
trailer records `mem_bytes.len()` as the object count and 0 as the root
index. -/
def writeTrace (fuel : Nat) (v : Plist) : Res WriteTrace :=
  (collectObjects fuel ⟨0, 1⟩ [] v).bind fun (st, memo, objectsData, _) =>
  let offsets := offsetsAcc 0 objectsData
  let objectBytes := objectsData.flatten
  let offsetTableStart := objectBytes.length + 8
  let refSize := widthForCount st.objects
  let offsetSize := widthForCount (offsets.getLast?.getD 0)
  (generateOffsetTable offsetSize offsets).bind fun table =>
  .ok { objects := st.objects, memo := memo, chunks := objectsData,
        offsets := offsets, refSize := refSize, offsetSize := offsetSize,
        out := magic ++ objectBytes ++ table ++
          generateTrailer offsetSize refSize memo.length 0 offsetTableStart }

/-- `BinaryWriter::write` restricted to its observable output bytes. -/
def bwrite (fuel : Nat) (v : Plist) : Res (List Nat) :=
  (writeTrace fuel v).bind fun t => .ok t.out

/-! ## Binary reader (src/src/stream/binary_reader.rs) -/

/-- The parsed trailer record (`struct Trailer` in the source). -/
structure Trailer where
  offsetTableOffsetSize : Nat
  objectRefSize : Nat
  numObjects : Nat
  topObjectOffset : Nat
  offsetTableStart : Nat
deriving Repr, DecidableEq, Inhabited

/-- `BinaryReader::parse_bplist_header`: match the 8-byte magic tag. -/
def parseBplistHeader (input : List Nat) : Res (List Nat) :=
  if input.take 8 = magic then .ok (input.drop 8) else .err

/-- `BinaryReader::parse_trailer`: skip 4 unused + 2 version bytes, then
read `offset_int_size`, `object_ref_size` and three 8-byte big-endian
fields. -/
def parseTrailer (input : List Nat) : Res (List Nat × Trailer) :=
  (rdTake 4 input).bind fun (i1, _) =>
  (rdTake 2 i1).bind fun (i2, _) =>
  (rdBe 1 i2).bind fun (i3, osz) =>
  (rdBe 1 i3).bind fun (i4, rsz) =>
  (rdBe 8 i4).bind fun (i5, num) =>
  (rdBe 8 i5).bind fun (i6, top) =>
  (rdBe 8 i6).bind fun (i7, start) =>
  .ok (i7, ⟨osz, rsz, num, top, start⟩)

/-- `BinaryReader::parse_header`: split one byte into the high-nibble type
tag and the low-nibble extra info. -/
def parseHeader (input : List Nat) : Res (List Nat × (Nat × Nat)) :=
  (rdBe 1 input).bind fun (i, header) => .ok (i, ((header / 16) % 16, header % 16))

/-- Two's-complement reinterpretation of a 64-bit unsigned value: models
`v as i64` on a `u64`. -/
def toI64 (n : Nat) : Int :=
  if n < 2 ^ 63 then (n : Int) else (n : Int) - 2 ^ 64

/-- `BinaryReader::parse_integer`: payload width `1 << extra_info`; widths
1/2/4 widen the unsigned value, width 8 reinterprets the `u64` as `i64`;
any other width is a nom error. -/
def parseInteger (input : List Nat) (extra : Nat) : Res (List Nat × Plist) :=
  match 1 <<< extra with
  | 1 => (rdBe 1 input).bind fun (i, v) => .ok (i, .integer v)
  | 2 => (rdBe 2 input).bind fun (i, v) => .ok (i, .integer v)
  | 4 => (rdBe 4 input).bind fun (i, v) => .ok (i, .integer v)
  | 8 => (rdBe 8 input).bind fun (i, v) => .ok (i, .integer (toI64 v))
  | _ => .err

/-- `BinaryReader::parse_count`: one marker byte whose low nibble gives
the byte width `1 << nibble`, then that many big-endian bytes. -/
def parseCount (input : List Nat) : Res (List Nat × Nat) :=
  (rdBe 1 input).bind fun (i, header) =>
  match 1 <<< (header % 16) with
  | 1 => rdBe 1 i
  | 2 => rdBe 2 i
  | 4 => rdBe 4 i
  | 8 => rdBe 8 i
  | _ => .err

/-- The shared `extra_info == 0xF` length rule: an inline length below
`0xF`, otherwise an explicit count record. -/
def parseLen (input : List Nat) (extra : Nat) : Res (List Nat × Nat) :=
  if extra = 0xF then parseCount input else .ok (input, extra)

/-- `BinaryReader::parse_string` (tag `0x5`): `len` raw bytes, decoded by
`String::from_utf8_lossy`; a Rust `String` is modelled by its UTF-8 bytes,
so on the valid UTF-8 the writer emits this decoding is the identity. -/
def parseString (input : List Nat) (extra : Nat) : Res (List Nat × Plist) :=
  (parseLen input extra).bind fun (i, len) =>
  (rdTake len i).bind fun (i2, bs) => .ok (i2, .string bs)

/-- UTF-16 code units to scalar values; `none` on an unpaired surrogate
(the failure case of `String::from_utf16`). -/
def utf16ToScalars : List Nat → Option (List Nat)
  | [] => some []
  | u :: rest =>
    if u < 0xD800 ∨ 0xE000 ≤ u then
      match utf16ToScalars rest with
      | some cs => some (u :: cs)
      | none => none
    else if u < 0xDC00 then
      match rest with
      | u2 :: rest2 =>
        if 0xDC00 ≤ u2 ∧ u2 < 0xE000 then
          match utf16ToScalars rest2 with
          | some cs => some ((0x10000 + (u - 0xD800) * 0x400 + (u2 - 0xDC00)) :: cs)
          | none => none
        else none
      | [] => none
    else none

/-- Standard UTF-8 encoding of one scalar value (how a Rust `String`
stores a `char`). -/
def utf8EncodeChar (c : Nat) : List Nat :=
  if c < 0x80 then [c]
  else if c < 0x800 then [0xC0 + c / 64, 0x80 + c % 64]
  else if c < 0x10000 then [0xE0 + c / 4096, 0x80 + c / 64 % 64, 0x80 + c % 64]
  else [0xF0 + c / 262144, 0x80 + c / 4096 % 64, 0x80 + c / 64 % 64, 0x80 + c % 64]

/-- `BinaryReader::parse_ascii_string` (tag `0x6`): `len` big-endian
16-bit code units decoded by `String::from_utf16` (failure on invalid
UTF-16); the resulting `String` is modelled by its UTF-8 bytes. -/
def parseAsciiString (input : List Nat) (extra : Nat) : Res (List Nat × Plist) :=
  (parseLen input extra).bind fun (i, len) =>
  (rdBeCount 2 len i).bind fun (i2, units) =>
  match utf16ToScalars units with
  | some cs => .ok (i2, .string (cs.flatMap utf8EncodeChar))
  | none => .err

/-- `BinaryReader::parse_bool`: extra info `0x00`/`0x08` give `false`,
`0x09` gives `true`, anything else is a nom failure. -/
def parseBool (input : List Nat) (extra : Nat) : Res (List Nat × Plist) :=
  match extra with
  | 0x00 => .ok (input, .boolean false)
  | 0x08 => .ok (input, .boolean false)
  | 0x09 => .ok (input, .boolean true)
  | _ => .err

/-- `BinaryReader::parse_data` (tag `0x4`): `len` raw bytes. -/
def parseData (input : List Nat) (extra : Nat) : Res (List Nat × Plist) :=
  (parseLen input extra).bind fun (i, len) =>
  (rdTake len i).bind fun (i2, bs) => .ok (i2, .data bs)

/-- `BinaryReader::parse_float` (tag `0x2`): reads a 4-byte single (extra
`0`/`2`) or an 8-byte double (extra `3`); the produced `Plist::Float`
depends on IEEE-754 conversion, which this embedding omits (`Res.fp`). -/
def parseFloatR (input : List Nat) (extra : Nat) : Res (List Nat × Plist) :=
  match extra with
  | 0 => (rdBe 4 input).bind fun _ => .fp
  | 2 => (rdBe 4 input).bind fun _ => .fp
  | 3 => (rdBe 8 input).bind fun _ => .fp
  | _ => .err

/-- `BinaryReader::parse_date` (tag `0x3`): reads an 8-byte double and
converts it through floating-point timestamp arithmetic, which this
embedding omits (`Res.fp`). -/
def parseDateR (input : List Nat) (_extra : Nat) : Res (List Nat × Plist) :=
  (rdBe 8 input).bind fun _ => .fp

/-- `BinaryReader::parse_offset_table`: `counts` big-endian entries of
`int_size` bytes; any other width is an explicit `panic!`. -/
def parseOffsetTable (input : List Nat) (counts : Nat) (intSize : Nat) :
    Res (List Nat × List Nat) :=
  match intSize with
  | 1 => rdBeCount 1 counts input
  | 2 => rdBeCount 2 counts input
  | 4 => rdBeCount 4 counts input
  | 8 => rdBeCount 8 counts input
  | _ => .panic

/-- The `object_ref_size`-wide reference block reader shared by
`parse_array` and `parse_dict`; any other width is an explicit `panic!`. -/
def rdRefs (refSize : Nat) (counts : Nat) (input : List Nat) :
    Res (List Nat × List Nat) :=
  match refSize with
  | 1 => rdBeCount 1 counts input
  | 2 => rdBeCount 2 counts input
  | 4 => rdBeCount 4 counts input
  | 8 => rdBeCount 8 counts input
  | _ => .panic

/-- The type of the recursive `parse_object` call (offset to result),
threaded through the loop helpers below. -/
abbrev ObjParser := Nat → Res (List Nat × Plist)

/-- The element loop of `parse_array`: resolve each reference through the
offset table (`offsets[r]` panics when out of range) and keep the decoded
value, discarding each recursive call's leftover input. -/
def parseObjListH (po : ObjParser) (offsets : List Nat) : List Nat → Res (List Plist)
  | [] => .ok []
  | r :: rest =>
    match offsets.get? r with
    | some off =>
      (po off).bind fun (_, obj) =>
      (parseObjListH po offsets rest).bind fun objs =>
      .ok (obj :: objs)
    | none => .panic

/-- The key loop of `parse_dict`: decode each key reference, keeping only
the keys that decode to strings (`if let Plist::String`). -/
def parseKeyListH (po : ObjParser) (offsets : List Nat) : List Nat → Res (List (List Nat))
  | [] => .ok []
  | r :: rest =>
    match offsets.get? r with
    | some off =>
      (po off).bind fun (_, key) =>
      (parseKeyListH po offsets rest).bind fun ks =>
      match key with
      | .string k => .ok (k :: ks)
      | _ => .ok ks
    | none => .panic

/-- The value loop of `parse_dict`: pair each retained key with the value
decoded from the corresponding entry of the zipped reference list. -/
def parsePairListH (po : ObjParser) (offsets : List Nat) :
    List (List Nat × Nat) → Res (List (List Nat × Plist))
  | [] => .ok []
  | (k, vi) :: rest =>
    match offsets.get? vi with
    | some off =>
      (po off).bind fun (_, val) =>
      (parsePairListH po offsets rest).bind fun ds =>
      .ok ((k, val) :: ds)
    | none => .panic

/-- `BinaryReader::parse_array` with the recursive `parse_object` call
abstracted as `po`: length, then `counts` references of
`object_ref_size` bytes, each resolved through the offset table and
decoded recursively. -/
def parseArayH (po : ObjParser) (data : List Nat) (offset : Nat) (extra : Nat)
    (trailer : Trailer) (offsets : List Nat) : Res (List Nat × Plist) :=
  if offset ≤ data.length then
    (parseLen (data.drop offset) extra).bind fun (input, counts) =>
    (rdRefs trailer.objectRefSize counts input).bind fun (input, refs) =>
    (parseObjListH po offsets refs).bind fun arr =>
    .ok (input, .array arr)
  else .panic

/-- `BinaryReader::parse_dict` with the recursive `parse_object` call
abstracted as `po`: length, the contiguous key-reference block, then the
contiguous value-reference block; keys that do not decode to strings are
silently skipped, and the retained keys are zipped with the full
value-reference list. -/
def parseDictH (po : ObjParser) (data : List Nat) (offset : Nat) (extra : Nat)
    (trailer : Trailer) (offsets : List Nat) : Res (List Nat × Plist) :=
  if offset ≤ data.length then
    (parseLen (data.drop offset) extra).bind fun (input, counts) =>
    (rdRefs trailer.objectRefSize counts input).bind fun (input, keyRefs) =>
    (rdRefs trailer.objectRefSize counts input).bind fun (input, valueRefs) =>
    (parseKeyListH po offsets keyRefs).bind fun keys =>
    (parsePairListH po offsets (keys.zip valueRefs)).bind fun dict =>
    .ok (input, .dictionary dict)
  else .panic

/-- `BinaryReader::parse_object`: slice the buffer at `offset` (an
out-of-range offset is a Rust panic), read the header byte, dispatch on
the type tag; containers recurse with decremented fuel. -/
def parseObject (data : List Nat) (offsets : List Nat) (trailer : Trailer) :
    Nat → Nat → Res (List Nat × Plist)
  | 0, _ => .nofuel
  | fuel + 1, offset =>
    if offset ≤ data.length then
      (parseHeader (data.drop offset)).bind fun (input, ti) =>
      match ti.1 with
      | 0x0 => parseBool input ti.2
      | 0x1 => parseInteger input ti.2
      | 0x2 => parseFloatR input ti.2
      | 0x3 => parseDateR input ti.2
      | 0x4 => parseData input ti.2
      | 0x5 => parseString input ti.2
      | 0x6 => parseAsciiString input ti.2
      | 0xA => parseArayH (parseObject data offsets trailer fuel) data (offset + 1)
          ti.2 trailer offsets
      | 0xD => parseDictH (parseObject data offsets trailer fuel) data (offset + 1)
          ti.2 trailer offsets
      | _ => .err
    else .panic

/-- `BinaryReader::parse`: magic, trailer (sliced from `len - 32`, a Rust
panic when the buffer is shorter than 32 bytes), offset table (sliced at
`offset_table_start`, a panic when past the end), root offset lookup (a
panic when `top_object_offset` is out of range), then the root object. -/
def parseRaw (fuel : Nat) (input : List Nat) : Res (List Nat × Plist) :=
  (parseBplistHeader input).bind fun _ =>
  (if input.length < 32 then .panic
    else Res.ok (input.drop (input.length - 32))).bind fun tl =>
  (parseTrailer tl).bind fun (_, trailer) =>
  (if trailer.offsetTableStart ≤ input.length
    then Res.ok (input.drop trailer.offsetTableStart) else .panic).bind fun tbl =>
  (parseOffsetTable tbl trailer.numObjects trailer.offsetTableOffsetSize).bind
    fun (_, offsets) =>
  match offsets.get? trailer.topObjectOffset with
  | some off => parseObject input offsets trailer fuel off
  | none => .panic

/-- The decoded value of `BinaryReader::parse` (callers discard the
remaining-input component). -/
def parsePlist (fuel : Nat) (input : List Nat) : Res Plist :=
  (parseRaw fuel input).bind fun (_, v) => .ok v

/-! ## Concrete malformed inputs for the safety claims -/

/-- A 9-byte buffer: the magic followed by one byte — `parse` slices
`input[input.len() - 32..]` on it. -/
def shortBuffer : List Nat := magic ++ [0x00]

/-- A 41-byte buffer whose trailer declares offset-int width 3 (not one of
1/2/4/8): one boolean object, a 1-entry offset table, and a trailer with
`offset_int_size = 3`. -/
def badWidthBuffer : List Nat :=
  magic ++ [0x09] ++ [8] ++ generateTrailer 3 1 1 0 9

/-- A 41-byte buffer whose trailer points the offset table past the end of
the buffer (`offset_table_start = 1000`). -/
def badStartBuffer : List Nat :=
  magic ++ [0x09] ++ [8] ++ generateTrailer 1 1 1 0 1000

/-- A 41-byte buffer whose trailer declares `top_object_index = 5` while
the offset table has a single entry. -/
def badTopBuffer : List Nat :=
  magic ++ [0x09] ++ [8] ++ generateTrailer 1 1 1 5 9

/-- A well-formed buffer for a two-entry dictionary whose first key
reference resolves to the integer 7 (not a string): objects are the
dictionary, the integer key 7, the string key `"b"`, and the integers 1
and 2; key references `[1, 2]`, value references `[3, 4]`. -/
def intKeyDictBuffer : List Nat :=
  magic ++ [0xD2, 1, 2, 3, 4] ++ [0x10, 7] ++ [0x51, 0x62] ++ [0x10, 1] ++ [0x10, 2] ++
    [8, 13, 15, 17, 19] ++ generateTrailer 1 1 5 0 21

/-! ## Claim C2 -/

/-- Claim C2: the claim states that every malformed buffer — shorter than
32 bytes, trailer width not in {1,2,4,8}, offset-table start past the end,
or out-of-range object index — produces a decode error and never a panic.
The code PANICS on each of the four listed cases (underflowing slice
`input[input.len() - 32..]`, explicit `panic!("Invalid offset int size")`,
out-of-range slice `input[offset_table_start..]`, and out-of-range index
`offsets[top_object_offset]`), for every recursion fuel. -/
theorem C2_malformed_buffers_panic :
    ∀ fuel : Nat,
      parsePlist fuel shortBuffer = .panic ∧
      parsePlist fuel badWidthBuffer = .panic ∧
      parsePlist fuel badStartBuffer = .panic ∧
      parsePlist fuel badTopBuffer = .panic :=
  fun _ => ⟨rfl, rfl, rfl, rfl⟩

/-! ## Claim C3 -/

/-- Claim C3: the claim states that the writer fails by returning a typed
error on a negative `Integer`.  The code instead hits
`panic!("Negative integers not implemented")` in
`BinaryWriter::serialize_integer`, aborting the process: writing the value
`Integer(-1)` panics for every recursion fuel. -/
theorem C3_write_negative_integer_panics :
    ∀ fuel : Nat, bwrite (fuel + 1) (.integer (-1)) = .panic := by
  intro fuel
  simp [bwrite, writeTrace, collectObjects, serializeObjectH, serializeInteger, Res.bind]

/-! ## Claim C4 -/

/-- Claim C4: the claim states that a dictionary key reference resolving
to a non-string object fails the whole decode.  The code instead silently
skips non-string keys (`if let Plist::String`) and then zips the retained
keys with the full value-reference block, mispairing keys with values: on
`intKeyDictBuffer` (keys `[Integer 7, "b"]`, values `[1, 2]`) it returns
the dictionary `[("b", 1)]` instead of an error. -/
theorem C4_non_string_key_skipped_not_error :
    parsePlist 10 intKeyDictBuffer = .ok (.dictionary [([0x62], .integer 1)]) := rfl

/-! ## Arithmetic facts about big-endian byte strings -/

/-- Folding bytes below 256 keeps the accumulator below
`(a + 1) * 256 ^ length`. -/
theorem beNat_foldl_lt (bs : List Nat) (hb : ∀ b ∈ bs, b < 256) :
    ∀ a : Nat, bs.foldl (fun x b => x * 256 + b) a < (a + 1) * 256 ^ bs.length := by
  induction bs with
  | nil => intro a; simp
  | cons b bs ih =>
    intro a
    simp only [List.foldl_cons, List.length_cons]
    have hb' : b < 256 := hb b (by simp)
    have := ih (fun x hx => hb x (by simp [hx])) (a * 256 + b)
    calc (bs.foldl (fun x b => x * 256 + b) (a * 256 + b)) <
        (a * 256 + b + 1) * 256 ^ bs.length := this
      _ ≤ (a + 1) * 256 ^ (bs.length + 1) := by
          rw [pow_succ]
          have : a * 256 + b + 1 ≤ (a + 1) * 256 := by omega
          calc (a * 256 + b + 1) * 256 ^ bs.length ≤ ((a + 1) * 256) * 256 ^ bs.length :=
                Nat.mul_le_mul_right _ this
            _ = (a + 1) * (256 ^ bs.length * 256) := by ring

/-- A big-endian byte string of bytes below 256 denotes a value below
`256 ^ length`. -/
theorem beNat_lt (bs : List Nat) (hb : ∀ b ∈ bs, b < 256) :
    beNat bs < 256 ^ bs.length := by
  have := beNat_foldl_lt bs hb 0
  simpa [beNat] using this

/-- Reading exactly the leading `w` bytes of `bs ++ rest`. -/
theorem rdBe_append (w : Nat) (bs rest : List Nat) (hlen : bs.length = w) :
    rdBe w (bs ++ rest) = .ok (rest, beNat bs) := by
  subst hlen
  simp [rdBe, List.take_left, List.drop_left]

/-! ## Claim C10 -/

/-- Claim C10: decoding an integer object with payload width
`1 << extra_info`: for widths 1/2/4 (extra info 0/1/2) the result is the
non-negative unsigned big-endian value of the payload; for width 8 (extra
info 3) the unsigned value is reinterpreted as a two's-complement 64-bit
integer, so a payload of value at least `2^63` decodes to a negative
integer. -/
theorem C10_integer_decoding (bs rest : List Nat) (extra : Nat)
    (hb : ∀ b ∈ bs, b < 256) (hlen : bs.length = 2 ^ extra) :
    (extra ≤ 2 →
      parseInteger (bs ++ rest) extra = .ok (rest, .integer (beNat bs)) ∧
        0 ≤ (beNat bs : Int)) ∧
    (extra = 3 →
      parseInteger (bs ++ rest) extra = .ok (rest, .integer (toI64 (beNat bs))) ∧
        (2 ^ 63 ≤ beNat bs → toI64 (beNat bs) < 0)) := by
  constructor
  · intro hle
    refine ⟨?_, Int.ofNat_nonneg _⟩
    interval_cases extra
    · have h1 : bs.length = 1 := by simpa using hlen
      simp [parseInteger, rdBe_append _ _ _ h1]
    · have h1 : bs.length = 2 := by simpa using hlen
      simp [parseInteger, rdBe_append _ _ _ h1]
    · have h1 : bs.length = 4 := by simpa using hlen
      simp [parseInteger, rdBe_append _ _ _ h1]
  · intro h3
    subst h3
    refine ⟨?_, ?_⟩
    · have h1 : bs.length = 8 := by simpa using hlen
      simp [parseInteger, rdBe_append _ _ _ h1]
    · intro hge
      have hlt : beNat bs < 2 ^ 64 := by
        have := beNat_lt bs hb
        rw [hlen] at this
        calc beNat bs < 256 ^ 2 ^ 3 := this
          _ = 2 ^ 64 := by norm_num
      simp only [toI64]
      rw [if_neg (by omega)]
      have h1 : (beNat bs : Int) < 2 ^ 64 := by exact_mod_cast hlt
      omega

/-- Witness for C10: a 1-byte payload `[5]` decodes to the integer 5, and
the 8-byte payload `80 00 00 00 00 00 00 00` (value `2^63`) decodes to a
negative integer. -/
theorem C10_integer_decoding_witness :
    parseInteger [5] 0 = .ok ([], .integer 5) ∧
    parseInteger [0x80, 0, 0, 0, 0, 0, 0, 0] 3 =
      .ok ([], .integer (toI64 (beNat [0x80, 0, 0, 0, 0, 0, 0, 0]))) ∧
    toI64 (beNat [0x80, 0, 0, 0, 0, 0, 0, 0]) < 0 := by
  have h1 := (C10_integer_decoding [5] [] 0 (by decide) (by decide)).1 (by decide)
  have h2 := (C10_integer_decoding [0x80, 0, 0, 0, 0, 0, 0, 0] [] 3
    (by decide) (by decide)).2 rfl
  exact ⟨h1.1, h2.1, h2.2 (by decide)⟩

/-! ## Plumbing lemmas for `Res` -/

theorem Res.bind_eq_ok {α β : Type} {r : Res α} {f : α → Res β} {b : β} :
    r.bind f = .ok b ↔ ∃ a, r = .ok a ∧ f a = .ok b := by
  cases r <;> simp [Res.bind]

/-! ## Well-formed values (the fragment the binary codec round-trips)

`Wf` carves out the values for which the written stream is read back
verbatim: no `data` payloads (their header byte is miscoded, see
`serializeData`), every container and string length at most 255 (larger
counts are written with a count marker the reader misparses, see
`serializeCount` vs `parseCount`), integers within `i64` and
non-negative, keys and strings made of honest bytes. -/
inductive Wf : Plist → Prop where
  | array : ∀ vs, vs.length ≤ 255 → (∀ v ∈ vs, Wf v) → Wf (.array vs)
  | dictionary : ∀ ps, ps.length ≤ 255 →
      (∀ p ∈ ps, (p.1 : List Nat).length ≤ 255) →
      (∀ p ∈ ps, ∀ b ∈ (p.1 : List Nat), b < 256) →
      (∀ p ∈ ps, Wf p.2) →
      Wf (.dictionary ps)
  | boolean : ∀ b, Wf (.boolean b)
  | integer : ∀ n : Int, 0 ≤ n → n < 2 ^ 63 → Wf (.integer n)
  | string : ∀ s : List Nat, s.length ≤ 255 → (∀ b ∈ s, b < 256) → Wf (.string s)

/-! ## Structural facts about the collection phase -/

/-- Entry `e` of the memo describes the chunk segment of `chunks`
starting at relative index `e.1 - base`: the writer stores, for each
collected object, its own chunk followed by its newly emitted
descendants' chunks. -/
def EntrySeg (chunks : List Chunk) (base : Nat) (e : Nat × List Chunk) : Prop :=
  base ≤ e.1 ∧ e.1 - base + e.2.length ≤ chunks.length ∧ e.2 ≠ [] ∧
    ∀ k < e.2.length, chunks.get? (e.1 - base + k) = e.2.get? k

/-- Every memo entry's final chunk also appears as a singleton entry (the
entry of the deepest last descendant): the invariant that makes the
dedup scan sound. -/
def LastClosed (M : Memo) : Prop :=
  ∀ e ∈ M, ∀ c, e.2.getLast? = some c → ∃ e2 ∈ M, e2.2 = [c]

/-- The structural contract of `collect_objects`: the counter advances by
the number of emitted chunks, the memo grows by one aligned entry per
emitted chunk, new entries never duplicate old byte lists, the last
emitted chunk has a singleton entry, and `ref_size` is untouched. -/
def CollectSpec (co : Collector) : Prop :=
  ∀ st memo v st' memo' chunks ref,
    co st memo v = .ok (st', memo', chunks, ref) →
    LastClosed memo →
    st'.refSize = st.refSize ∧
    st'.objects = st.objects + chunks.length ∧
    (∀ c ∈ chunks, c ≠ []) ∧
    ∃ Δ, memo' = memo ++ Δ ∧ Δ.length = chunks.length ∧
      (∀ e ∈ Δ, EntrySeg chunks st.objects e) ∧
      (∀ e ∈ Δ, ∀ e0 ∈ memo, e0.2 ≠ e.2) ∧
      (∀ c, chunks.getLast? = some c → ∃ j, (j, [c]) ∈ Δ) ∧
      LastClosed (memo ++ Δ)



theorem EntrySeg.append_right {c1 c2 : List Chunk} {b : Nat} {e : Nat × List Chunk}
    (h : EntrySeg c1 b e) : EntrySeg (c1 ++ c2) b e := by
  obtain ⟨h1, h2, h3, h4⟩ := h
  refine ⟨h1, ?_, h3, ?_⟩
  · simp only [List.length_append]; omega
  · intro k hk
    rw [List.get?_append (by omega)]
    exact h4 k hk

theorem EntrySeg.shift {c1 c2 : List Chunk} {b : Nat} {e : Nat × List Chunk}
    (h : EntrySeg c2 (b + c1.length) e) : EntrySeg (c1 ++ c2) b e := by
  obtain ⟨h1, h2, h3, h4⟩ := h
  refine ⟨by omega, ?_, h3, ?_⟩
  · simp only [List.length_append]; omega
  · intro k hk
    have : e.1 - b + k = c1.length + (e.1 - (b + c1.length) + k) := by omega
    rw [this, List.get?_append_right (by omega)]
    have : c1.length + (e.1 - (b + c1.length) + k) - c1.length = e.1 - (b + c1.length) + k := by
      omega
    rw [this]
    exact h4 k hk

theorem collectKeysH_eq (co : Collector) :
    ∀ (ps : List (List Nat × Plist)) st memo buffer datas,
      collectKeysH co st memo buffer datas ps =
        collectListH co st memo buffer datas (ps.map fun p => .string p.1) := by
  intro ps
  induction ps with
  | nil => intro st memo buffer datas; rfl
  | cons p rest ih =>
    intro st memo buffer datas
    obtain ⟨k, v⟩ := p
    simp only [collectKeysH, collectListH, List.map_cons]
    cases co st memo (.string k) <;> simp [Res.bind, ih]

theorem collectValsH_eq (co : Collector) :
    ∀ (ps : List (List Nat × Plist)) st memo buffer datas,
      collectValsH co st memo buffer datas ps =
        collectListH co st memo buffer datas (ps.map Prod.snd) := by
  intro ps
  induction ps with
  | nil => intro st memo buffer datas; rfl
  | cons p rest ih =>
    intro st memo buffer datas
    obtain ⟨k, v⟩ := p
    simp only [collectValsH, collectListH, List.map_cons]
    cases co st memo v <;> simp [Res.bind, ih]



theorem collectListH_spec (co : Collector) (hco : CollectSpec co) :
    ∀ (vs : List Plist) st memo buffer datas st' memo' buffer' datas',
      collectListH co st memo buffer datas vs = .ok (st', memo', buffer', datas') →
      LastClosed memo →
      st'.refSize = st.refSize ∧
      (∃ ext, buffer' = buffer ++ ext) ∧
      ∃ newChunks Δ,
        datas' = datas ++ newChunks ∧
        memo' = memo ++ Δ ∧
        st'.objects = st.objects + newChunks.length ∧
        (∀ c ∈ newChunks, c ≠ []) ∧
        Δ.length = newChunks.length ∧
        (∀ e ∈ Δ, EntrySeg newChunks st.objects e) ∧
        (∀ e ∈ Δ, ∀ e0 ∈ memo, e0.2 ≠ e.2) ∧
        (∀ c, newChunks.getLast? = some c → ∃ j, (j, [c]) ∈ Δ) ∧
        LastClosed (memo ++ Δ) := by
  intro vs
  induction vs with
  | nil =>
    intro st memo buffer datas st' memo' buffer' datas' h hlc
    simp only [collectListH, Res.ok.injEq, Prod.mk.injEq] at h
    obtain ⟨h1, h2, h3, h4⟩ := h
    subst h1; subst h2; subst h3; subst h4
    exact ⟨rfl, ⟨[], by simp⟩, [], [], by simp, by simp, by simp, by simp, by simp, by simp,
      by simp, by simp, by simpa using hlc⟩
  | cons v rest ih =>
    intro st memo buffer datas st' memo' buffer' datas' h hlc
    simp only [collectListH] at h
    rw [Res.bind_eq_ok] at h
    obtain ⟨⟨st1, memo1, data, refB⟩, hc, h⟩ := h
    obtain ⟨hrs1, hobj1, hne1, Δ1, hm1, hlen1, hseg1, hdup1, hlast1, hlc1⟩ :=
      hco st memo v st1 memo1 data refB hc hlc
    rw [hm1] at h
    obtain ⟨hrs2, ⟨ext2, hbuf2⟩, nc2, Δ2, hd2, hm2, hobj2, hne2, hlen2, hseg2, hdup2, hlast2,
      hlc2⟩ :=
      ih st1 (memo ++ Δ1) (buffer ++ refB) (datas ++ data) st' memo' buffer' datas' h hlc1
    refine ⟨by rw [hrs2, hrs1], ⟨refB ++ ext2, by rw [hbuf2, List.append_assoc]⟩,
      data ++ nc2, Δ1 ++ Δ2, ?_, ?_, ?_, ?_, ?_, ?_, ?_, ?_, ?_⟩
    · rw [hd2, List.append_assoc]
    · rw [hm2, List.append_assoc]
    · rw [hobj2, hobj1, List.length_append]; omega
    · intro c hcmem
      rcases List.mem_append.mp hcmem with h | h
      · exact hne1 c h
      · exact hne2 c h
    · simp [hlen1, hlen2]
    · intro e he
      rcases List.mem_append.mp he with h | h
      · exact (hseg1 e h).append_right
      · have := hseg2 e h
        rw [hobj1] at this
        exact this.shift
    · intro e he e0 he0
      rcases List.mem_append.mp he with h | h
      · exact hdup1 e h e0 he0
      · exact hdup2 e h e0 (List.mem_append.mpr (.inl he0))
    · intro c hc2
      rcases eq_or_ne nc2 [] with hn | hn
      · subst hn
        simp only [List.append_nil] at hc2
        obtain ⟨j, hj⟩ := hlast1 c hc2
        exact ⟨j, List.mem_append.mpr (.inl hj)⟩
      · rw [List.getLast?_append_of_ne_nil _ hn] at hc2
        obtain ⟨j, hj⟩ := hlast2 c hc2
        exact ⟨j, List.mem_append.mpr (.inr hj)⟩
    · rw [← List.append_assoc]
      exact hlc2



theorem serializeObjectH_spec (co : Collector) (hco : CollectSpec co)
    (st : WSt) (memo : Memo) (v : Plist) (st2 : WSt) (memo2 : Memo) (bytes : List Chunk)
    (h : serializeObjectH co st memo v = .ok (st2, memo2, bytes))
    (hlc : LastClosed memo) :
    st2.refSize = st.refSize ∧
    ∃ buffer datas, bytes = buffer :: datas ∧ buffer ≠ [] ∧
      st2.objects = st.objects + datas.length ∧
      (∀ c ∈ datas, c ≠ []) ∧
      ∃ Δ, memo2 = memo ++ Δ ∧ Δ.length = datas.length ∧
        (∀ e ∈ Δ, EntrySeg datas st.objects e) ∧
        (∀ e ∈ Δ, ∀ e0 ∈ memo, e0.2 ≠ e.2) ∧
        (∀ c, datas.getLast? = some c → ∃ j, (j, [c]) ∈ Δ) ∧
        LastClosed (memo ++ Δ) := by
  cases v with
  | array vs =>
    simp only [serializeObjectH] at h
    rw [Res.bind_eq_ok] at h
    obtain ⟨⟨st', memo', buffer, datas⟩, hl, hok⟩ := h
    simp only [Res.ok.injEq, Prod.mk.injEq] at hok
    obtain ⟨h1, h2, h3⟩ := hok
    subst h1; subst h2; subst h3
    obtain ⟨hrs, ⟨ext, hbuf⟩, nc, Δ, hd, hm, hobj, hne, hlen, hseg, hdup, hlast, hlc'⟩ :=
      collectListH_spec co hco vs st memo _ [] st' memo' buffer datas hl hlc
    simp only [List.nil_append] at hd
    subst hd
    exact ⟨hrs, buffer, datas, rfl, by simp [hbuf], hobj, hne, Δ, hm, hlen, hseg, hdup, hlast, hlc'⟩
  | dictionary ps =>
    simp only [serializeObjectH] at h
    rw [Res.bind_eq_ok] at h
    obtain ⟨⟨st', memo', buffer1, datas1⟩, hk, h⟩ := h
    rw [Res.bind_eq_ok] at h
    obtain ⟨⟨st'', memo'', buffer2, datas2⟩, hv, hok⟩ := h
    simp only [Res.ok.injEq, Prod.mk.injEq] at hok
    obtain ⟨h1, h2, h3⟩ := hok
    subst h1; subst h2; subst h3
    rw [collectKeysH_eq] at hk
    dsimp only at hv
    rw [collectValsH_eq] at hv
    obtain ⟨hrs1, ⟨ext1, hbuf1⟩, nc1, Δ1, hd1, hm1, hobj1, hne1, hlen1, hseg1, hdup1, hlast1,
      hlc1⟩ := collectListH_spec co hco _ st memo _ [] st' memo' buffer1 datas1 hk hlc
    simp only [List.nil_append] at hd1
    subst hd1
    rw [hm1] at hv
    obtain ⟨hrs2, ⟨ext2, hbuf2⟩, nc2, Δ2, hd2, hm2, hobj2, hne2, hlen2, hseg2, hdup2, hlast2,
      hlc2⟩ := collectListH_spec co hco _ st' (memo ++ Δ1) buffer1 datas1 st'' memo'' buffer2
        datas2 hv hlc1
    refine ⟨by rw [hrs2, hrs1], buffer2, datas1 ++ nc2, by rw [hd2], ?_, ?_, ?_,
      Δ1 ++ Δ2, ?_, ?_, ?_, ?_, ?_, ?_⟩
    · rw [hbuf2, hbuf1]; simp
    · rw [hobj2, hobj1, List.length_append]; omega
    · intro c hcmem
      rcases List.mem_append.mp hcmem with hmm | hmm
      · exact hne1 c hmm
      · exact hne2 c hmm
    · rw [hm2, List.append_assoc]
    · simp [hlen1, hlen2]
    · intro e he
      rcases List.mem_append.mp he with hmm | hmm
      · exact (hseg1 e hmm).append_right
      · have := hseg2 e hmm
        rw [hobj1] at this
        exact this.shift
    · intro e he e0 he0
      rcases List.mem_append.mp he with hmm | hmm
      · exact hdup1 e hmm e0 he0
      · exact hdup2 e hmm e0 (List.mem_append.mpr (.inl he0))
    · intro c hc2
      rcases eq_or_ne nc2 [] with hn | hn
      · subst hn
        simp only [List.append_nil] at hc2
        obtain ⟨j, hj⟩ := hlast1 c hc2
        exact ⟨j, List.mem_append.mpr (.inl hj)⟩
      · rw [List.getLast?_append_of_ne_nil _ hn] at hc2
        obtain ⟨j, hj⟩ := hlast2 c hc2
        exact ⟨j, List.mem_append.mpr (.inr hj)⟩
    · rw [← List.append_assoc]
      exact hlc2
  | boolean b =>
    simp only [serializeObjectH, Res.ok.injEq, Prod.mk.injEq] at h
    obtain ⟨h1, h2, h3⟩ := h
    subst h1; subst h2; subst h3
    exact ⟨rfl, _, [], rfl, by simp, by simp, by simp, [], by simp, by simp, by simp,
      by simp, by simp, by simpa using hlc⟩
  | integer n =>
    simp only [serializeObjectH] at h
    rw [Res.bind_eq_ok] at h
    obtain ⟨⟨marker, bs⟩, hi, hok⟩ := h
    simp only [Res.ok.injEq, Prod.mk.injEq] at hok
    obtain ⟨h1, h2, h3⟩ := hok
    subst h1; subst h2; subst h3
    exact ⟨rfl, _, [], rfl, by simp, by simp, by simp, [], by simp, by simp, by simp,
      by simp, by simp, by simpa using hlc⟩
  | string s =>
    simp only [serializeObjectH, Res.ok.injEq, Prod.mk.injEq] at h
    obtain ⟨h1, h2, h3⟩ := h
    subst h1; subst h2; subst h3
    exact ⟨rfl, _, [], rfl, by simp, by simp, by simp, [], by simp, by simp, by simp,
      by simp, by simp, by simpa using hlc⟩
  | data d =>
    simp only [serializeObjectH, Res.ok.injEq, Prod.mk.injEq] at h
    obtain ⟨h1, h2, h3⟩ := h
    subst h1; subst h2; subst h3
    exact ⟨rfl, _, [], rfl, by simp, by simp, by simp, [], by simp, by simp, by simp,
      by simp, by simp, by simpa using hlc⟩



theorem getLast?_cons_ne {α : Type} (b : α) (l : List α) (h : l ≠ []) :
    (b :: l).getLast? = l.getLast? := by
  have hb : b :: l = [b] ++ l := rfl
  rw [hb, List.getLast?_append_of_ne_nil _ h]

theorem collectObjects_spec : ∀ fuel, CollectSpec (collectObjects fuel) := by
  intro fuel
  induction fuel with
  | zero =>
    intro st memo v st' memo' chunks ref h hlc
    simp [collectObjects] at h
  | succ fuel ih =>
    intro st memo v st' memo' chunks ref h hlc
    simp only [collectObjects] at h
    rw [Res.bind_eq_ok] at h
    obtain ⟨⟨st2, memo2, bytes⟩, hs, h⟩ := h
    obtain ⟨hrs2, buffer, datas, hbytes, hbne, hobj2, hne, Δs, hm2, hlens, hsegs, hdups,
      hlasts, hlcs⟩ := serializeObjectH_spec _ ih _ memo v st2 memo2 bytes hs hlc
    subst hbytes
    dsimp only at h
    cases hf : memo2.find? (fun p => p.2 == buffer :: datas) with
    | some p =>
      rw [hf] at h
      obtain ⟨keyIdx, bl⟩ := p
      dsimp only at h
      have hpred : bl = buffer :: datas := by
        have := List.find?_some hf
        simpa using this
      have hmem : (keyIdx, bl) ∈ memo2 := List.mem_of_find?_eq_some hf
      have hdatas : datas = [] := by
        by_contra hnil
        obtain ⟨c, hc⟩ : ∃ c, datas.getLast? = some c := by
          cases hd : datas.getLast? with
          | none => exact absurd (List.getLast?_eq_none_iff.mp hd) hnil
          | some c => exact ⟨c, rfl⟩
        obtain ⟨j, hj⟩ := hlasts c hc
        rw [hm2] at hmem
        rcases List.mem_append.mp hmem with hold | hnew
        · have hlastbl : bl.getLast? = some c := by
            rw [hpred, getLast?_cons_ne _ _ hnil]
            exact hc
          obtain ⟨e2, he2mem, he2⟩ := hlc (keyIdx, bl) hold c hlastbl
          exact hdups (j, [c]) hj e2 he2mem (by rw [he2])
        · have hseg := hsegs (keyIdx, bl) hnew
          have hlen : bl.length ≤ datas.length := by
            obtain ⟨_, hb, _, _⟩ := hseg
            dsimp only at hb
            omega
          rw [hpred] at hlen
          simp at hlen
      subst hdatas
      have hΔnil : Δs = [] := List.eq_nil_of_length_eq_zero (by simpa using hlens)
      subst hΔnil
      rw [Res.bind_eq_ok] at h
      obtain ⟨r, hr, hok⟩ := h
      simp only [Res.ok.injEq, Prod.mk.injEq] at hok
      obtain ⟨h1, h2, h3, h4⟩ := hok
      subst h1; subst h2; subst h3; subst h4
      simp only [List.append_nil] at hm2
      refine ⟨by simpa using hrs2, ?_, by simp, [], by simpa using hm2, by simp, by simp,
        by simp, by simp, by simpa using hlc⟩
      simp only [List.length_nil, Nat.add_zero]
      have : st2.objects = st.objects + 1 := by simpa using hobj2
      simp [this]
    | none =>
      rw [hf] at h
      rw [Res.bind_eq_ok] at h
      obtain ⟨r, hr, hok⟩ := h
      simp only [Res.ok.injEq, Prod.mk.injEq] at hok
      obtain ⟨h1, h2, h3, h4⟩ := hok
      subst h1; subst h2; subst h3; subst h4
      have hfindnone : ∀ e ∈ memo2, e.2 ≠ buffer :: datas := by
        intro e he heq
        have := List.find?_eq_none.mp hf e he
        simp [heq] at this
      refine ⟨by simpa using hrs2, ?_, ?_, Δs ++ [(st.objects, buffer :: datas)],
        by rw [hm2, List.append_assoc], by simp [hlens], ?_, ?_, ?_, ?_⟩
      · have : st2.objects = st.objects + 1 + datas.length := by simpa using hobj2
        simp only [List.length_cons]
        omega
      · intro c hcm
        rcases List.mem_cons.mp hcm with hcc | hcc
        · subst hcc; exact hbne
        · exact hne c hcc
      · intro e he
        rcases List.mem_append.mp he with hold | hnew
        · have hseg := hsegs e hold
          have h1 : EntrySeg ([buffer] ++ datas) st.objects e := by
            apply EntrySeg.shift
            simpa using hseg
          simpa using h1
        · simp only [List.mem_singleton] at hnew
          subst hnew
          exact ⟨le_refl _, by simp, by simp, fun k hk => by simp⟩
      · intro e he e0 he0
        rcases List.mem_append.mp he with hold | hnew
        · exact hdups e hold e0 he0
        · simp only [List.mem_singleton] at hnew
          subst hnew
          exact fun heq => hfindnone e0 (by rw [hm2]; exact List.mem_append.mpr (.inl he0)) heq
      · intro c hcl
        rcases eq_or_ne datas [] with hd | hd
        · subst hd
          simp only [List.getLast?_singleton, Option.some.injEq] at hcl
          subst hcl
          exact ⟨st.objects, List.mem_append.mpr (.inr (by simp))⟩
        · rw [getLast?_cons_ne _ _ hd] at hcl
          obtain ⟨j, hj⟩ := hlasts c hcl
          exact ⟨j, List.mem_append.mpr (.inl hj)⟩
      · intro e he c hcl
        rw [← List.append_assoc] at he
        rcases List.mem_append.mp he with hold | hnew
        · obtain ⟨e2, he2m, he2⟩ := hlcs e hold c hcl
          refine ⟨e2, ?_, he2⟩
          rw [← List.append_assoc]
          exact List.mem_append.mpr (.inl he2m)
        · simp only [List.mem_singleton] at hnew
          subst hnew
          rcases eq_or_ne datas [] with hd | hd
          · subst hd
            simp only [List.getLast?_singleton, Option.some.injEq] at hcl
            subst hcl
            refine ⟨(st.objects, [buffer]), ?_, rfl⟩
            rw [← List.append_assoc]
            exact List.mem_append.mpr (.inr (by simp))
          · rw [show ((st.objects, buffer :: datas) : Nat × List Chunk).2 = buffer :: datas
              from rfl, getLast?_cons_ne _ _ hd] at hcl
            obtain ⟨j, hj⟩ := hlasts c hcl
            refine ⟨(j, [c]), ?_, rfl⟩
            rw [← List.append_assoc]
            exact List.mem_append.mpr (.inl (List.mem_append.mpr (.inr hj)))


/-- The empty memo trivially satisfies the closure invariant. -/
theorem LastClosed.nil : LastClosed [] := by
  intro e he
  simp at he

/-! ## Claim C9 -/

/-- Claim C9: every object reference emitted during collection is exactly
one byte wide, regardless of the object count, because `collect_objects`
serializes references while `ref_size` still holds its initial value 1
(`calculate_sizes` runs only after collection).  Formally: starting from
any state whose `ref_size` is 1 (as `BinaryWriter::new` initialises it),
a successful collection returns a 1-byte reference and leaves `ref_size`
at 1 — so every reference a container buffer accumulates (each being the
reference output of a child collection under `ref_size = 1`) is 1 byte. -/
theorem C9_collection_refs_one_byte (fuel : Nat) (st : WSt) (memo : Memo) (v : Plist)
    (st' : WSt) (memo' : Memo) (chunks : List Chunk) (ref : List Nat)
    (h : collectObjects fuel st memo v = .ok (st', memo', chunks, ref))
    (hrs : st.refSize = 1) (hlc : LastClosed memo) :
    ref.length = 1 ∧ st'.refSize = 1 := by
  obtain ⟨hrs', _, _, _⟩ := collectObjects_spec fuel st memo v st' memo' chunks ref h hlc
  refine ⟨?_, by rw [hrs', hrs]⟩
  cases fuel with
  | zero => simp [collectObjects] at h
  | succ fuel =>
    simp only [collectObjects] at h
    rw [Res.bind_eq_ok] at h
    obtain ⟨⟨st2, memo2, bytes⟩, hs, h⟩ := h
    have hrs2 : st2.refSize = 1 :=
      (serializeObjectH_spec _ (collectObjects_spec fuel) _ memo v st2 memo2 bytes hs hlc).1.trans
        hrs
    dsimp only at h
    cases hf : memo2.find? (fun p => p.2 == bytes) with
    | some p =>
      rw [hf] at h
      obtain ⟨keyIdx, bl⟩ := p
      rw [Res.bind_eq_ok] at h
      obtain ⟨r, hr, hok⟩ := h
      rw [show ({ objects := st2.objects - 1, refSize := st2.refSize } : WSt).refSize =
        st2.refSize from rfl, hrs2] at hr
      simp only [serializeRef, Res.ok.injEq] at hr
      simp only [Res.ok.injEq, Prod.mk.injEq] at hok
      obtain ⟨_, _, _, h4⟩ := hok
      subst h4
      rw [← hr]
      rfl
    | none =>
      rw [hf] at h
      rw [Res.bind_eq_ok] at h
      obtain ⟨r, hr, hok⟩ := h
      rw [hrs2] at hr
      simp only [serializeRef, Res.ok.injEq] at hr
      simp only [Res.ok.injEq, Prod.mk.injEq] at hok
      obtain ⟨_, _, _, h4⟩ := hok
      subst h4
      rw [← hr]
      rfl

/-- Witness for C9: collecting `Array [true]` from the initial writer
state emits the 1-byte reference `[0]` and keeps `ref_size = 1`. -/
theorem C9_collection_refs_one_byte_witness :
    collectObjects 5 ⟨0, 1⟩ [] (.array [.boolean true]) =
      .ok (⟨2, 1⟩, [(1, [[9]]), (0, [[0xA1, 1], [9]])], [[0xA1, 1], [9]], [0]) ∧
    ([0] : List Nat).length = 1 ∧ (⟨2, 1⟩ : WSt).refSize = 1 :=
  ⟨rfl, C9_collection_refs_one_byte 5 ⟨0, 1⟩ [] (.array [.boolean true]) ⟨2, 1⟩
    [(1, [[9]]), (0, [[0xA1, 1], [9]])] [[0xA1, 1], [9]] [0] rfl rfl LastClosed.nil⟩

/-! ## Offsets are increasing, so the last recorded offset is the largest -/

theorem offsetsAcc_ne_nil (pos : Nat) (C : List Chunk) (hC : C ≠ []) :
    offsetsAcc pos C ≠ [] := by
  cases C with
  | nil => exact absurd rfl hC
  | cons c cs => simp [offsetsAcc]

theorem offsetsAcc_getLast_ge (C : List Chunk) :
    ∀ pos, C ≠ [] → pos + 8 ≤ (offsetsAcc pos C).getLast?.getD 0 := by
  induction C with
  | nil => intro pos h; exact absurd rfl h
  | cons c cs ih =>
    intro pos _
    cases hcs : cs with
    | nil => simp [offsetsAcc]
    | cons c2 cs2 =>
      subst hcs
      have hne : offsetsAcc (pos + c.length) (c2 :: cs2) ≠ [] :=
        offsetsAcc_ne_nil _ _ (by simp)
      rw [offsetsAcc, getLast?_cons_ne _ _ hne]
      have := ih (pos + c.length) (by simp)
      omega

theorem mem_offsetsAcc_le_getLast (C : List Chunk) :
    ∀ pos, ∀ x ∈ offsetsAcc pos C, x ≤ (offsetsAcc pos C).getLast?.getD 0 := by
  induction C with
  | nil => intro pos x hx; simp [offsetsAcc] at hx
  | cons c cs ih =>
    intro pos x hx
    cases hcs : cs with
    | nil =>
      subst hcs
      simp only [offsetsAcc] at hx ⊢
      simp only [List.mem_singleton] at hx
      simp [hx]
    | cons c2 cs2 =>
      subst hcs
      have hne : offsetsAcc (pos + c.length) (c2 :: cs2) ≠ [] :=
        offsetsAcc_ne_nil _ _ (by simp)
      rw [offsetsAcc, getLast?_cons_ne _ _ hne]
      rw [offsetsAcc, List.mem_cons] at hx
      rcases hx with hx | hx
      · have := offsetsAcc_getLast_ge (c2 :: cs2) (pos + c.length) (by simp)
        omega
      · exact ih (pos + c.length) x hx

theorem le_foldr_max {x : Nat} {l : List Nat} (h : x ∈ l) : x ≤ l.foldr max 0 := by
  induction l with
  | nil => simp at h
  | cons y ys ih =>
    rcases List.mem_cons.mp h with h | h
    · subst h; simp only [List.foldr_cons]; omega
    · have := ih h
      simp only [List.foldr_cons]
      omega

theorem foldr_max_le {b : Nat} {l : List Nat} (h : ∀ x ∈ l, x ≤ b) : l.foldr max 0 ≤ b := by
  induction l with
  | nil => simp
  | cons y ys ih =>
    simp only [List.foldr_cons]
    have h1 := h y (by simp)
    have h2 := ih fun x hx => h x (by simp [hx])
    omega

/-- The largest recorded offset is the last one: `offsets.last()` in
`calculate_sizes` is the maximum because offsets are recorded in
increasing cursor order. -/
theorem maxOffset_eq_getLast (pos : Nat) (C : List Chunk) :
    (offsetsAcc pos C).foldr max 0 = (offsetsAcc pos C).getLast?.getD 0 := by
  cases hC : C with
  | nil => simp [offsetsAcc]
  | cons c cs =>
    subst hC
    apply le_antisymm
    · exact foldr_max_le (mem_offsetsAcc_le_getLast _ pos)
    · have hne : offsetsAcc pos (c :: cs) ≠ [] := offsetsAcc_ne_nil _ _ (by simp)
      obtain ⟨a, ha⟩ : ∃ a, (offsetsAcc pos (c :: cs)).getLast? = some a := by
        cases hg : (offsetsAcc pos (c :: cs)).getLast? with
        | none => exact absurd (List.getLast?_eq_none_iff.mp hg) hne
        | some a => exact ⟨a, rfl⟩
      rw [ha]
      simp only [Option.getD_some]
      exact le_foldr_max (List.mem_of_mem_getLast? (by rw [ha]; rfl))

/-- The selected width can represent the value (within the `u64` domain of
the recorded offsets). -/
theorem widthForCount_bound (n : Nat) (h : n < 2 ^ 64) :
    n ≤ 256 ^ widthForCount n - 1 := by
  unfold widthForCount
  split_ifs with h1 h2 h3 <;> norm_num <;> omega

/-- The selected width is minimal among 1/2/4/8. -/
theorem widthForCount_min (n w : Nat) (hw : w = 1 ∨ w = 2 ∨ w = 4 ∨ w = 8)
    (h : n ≤ 256 ^ w - 1) : widthForCount n ≤ w := by
  unfold widthForCount
  rcases hw with h' | h' | h' | h' <;> subst h' <;> norm_num at h <;> split_ifs <;> omega

/-- The trace of a successful write (defaulting to the trivial trace). -/
def traceOf (fuel : Nat) (v : Plist) : WriteTrace :=
  match writeTrace fuel v with
  | .ok t => t
  | _ => default

/-! ## Claim C5 -/

/-- Claim C5: for every successfully written value, the trailer records
`object_ref_size` as 1/2/4/8 bytes according to whether the stored object
count is at most 255/65535/4294967295, and `offset_size` as the minimal
width among 1/2/4/8 bytes that represents the largest recorded offset
(offsets live in the writer's `u64` domain, hence the `2^64` bound). -/
theorem C5_trailer_width_selection (fuel : Nat) (v : Plist) (t : WriteTrace)
    (h : writeTrace fuel v = .ok t)
    (hdom : t.offsets.foldr max 0 < 2 ^ 64) :
    (t.objects ≤ 0xFF → t.refSize = 1) ∧
    (0xFF < t.objects → t.objects ≤ 0xFFFF → t.refSize = 2) ∧
    (0xFFFF < t.objects → t.objects ≤ 0xFFFFFFFF → t.refSize = 4) ∧
    (0xFFFFFFFF < t.objects → t.refSize = 8) ∧
    t.offsets.foldr max 0 ≤ 256 ^ t.offsetSize - 1 ∧
    (∀ w, (w = 1 ∨ w = 2 ∨ w = 4 ∨ w = 8) →
      t.offsets.foldr max 0 ≤ 256 ^ w - 1 → t.offsetSize ≤ w) := by
  unfold writeTrace at h
  rw [Res.bind_eq_ok] at h
  obtain ⟨⟨st, memo, objectsData, ref⟩, hc, h⟩ := h
  dsimp only at h
  rw [Res.bind_eq_ok] at h
  obtain ⟨table, htab, hok⟩ := h
  simp only [Res.ok.injEq] at hok
  subst hok
  dsimp only at hdom ⊢
  rw [maxOffset_eq_getLast] at hdom ⊢
  refine ⟨?_, ?_, ?_, ?_, ?_, ?_⟩
  · intro h1; unfold widthForCount; split_ifs <;> omega
  · intro h1 h2; unfold widthForCount; split_ifs <;> omega
  · intro h1 h2; unfold widthForCount; split_ifs <;> omega
  · intro h1; unfold widthForCount; split_ifs <;> omega
  · exact widthForCount_bound _ hdom
  · intro w hw hle
    exact widthForCount_min _ w hw hle

/-- Witness for C5: writing `Array [true]` (2 stored objects, offsets
`[8, 10]`) records a 1-byte `object_ref_size` and a 1-byte
`offset_size`. -/
theorem C5_trailer_width_selection_witness :
    writeTrace 5 (.array [.boolean true]) = .ok (traceOf 5 (.array [.boolean true])) ∧
    (traceOf 5 (.array [.boolean true])).refSize = 1 ∧
    (traceOf 5 (.array [.boolean true])).offsetSize = 1 := by
  have h := C5_trailer_width_selection 5 (.array [.boolean true])
    (traceOf 5 (.array [.boolean true])) rfl (by decide)
  refine ⟨rfl, h.1 (by decide), ?_⟩
  have h1 := h.2.2.2.2.2 1 (.inl rfl) (by decide)
  have h2 : 1 ≤ (traceOf 5 (.array [.boolean true])).offsetSize := by decide
  omega

/-! ## Claim C6 -/

/-- Two occurrences of `Array [String "s"]` around one shared string. -/
def nestedDupArray : Plist :=
  .array [.array [.string [0x73]], .array [.string [0x73]]]

/-- The dictionary `{"a": "iOS", "b": "iOS"}` from the spec's dedup
example. -/
def iosDict : Plist :=
  .dictionary [([0x61], .string [0x69, 0x4F, 0x53]), ([0x62], .string [0x69, 0x4F, 0x53])]

/-- The object count of a hypothetical writer without deduplication (the
spec's "naive (non-deduplicated) object count"): one object per node plus
one per dictionary key. -/
def naiveCount : Nat → Plist → Nat
  | 0, _ => 0
  | fuel + 1, v =>
    match v with
    | .array vs => 1 + (vs.map (naiveCount fuel)).sum
    | .dictionary ps => 1 + ps.length + (ps.map fun p => naiveCount fuel p.2).sum
    | _ => 1

/-- Counterexample to claim C6 as stated: in `nestedDupArray` the two
inner arrays serialize to the byte-identical chunk `[0xA1, 2]` (each
holding one reference to the shared string stored at index 2), yet BOTH
are stored — the emitted chunks at indices 1 and 3 are identical, the
object count is 4, and the root buffer `[0xA2, 1, 3]` references index 3
(not the first occurrence's index 1) for the second occurrence.  The
dedup scan compares whole serialized chunk LISTS, and the first
occurrence's memo entry is the composite `[[0xA1, 2], [0x51, 0x73]]`,
which the second occurrence's singleton candidate `[[0xA1, 2]]` does not
match. -/
theorem C6_counterexample_duplicate_chunk_stored :
    (traceOf 6 nestedDupArray).chunks = [[0xA2, 1, 3], [0xA1, 2], [0x51, 0x73], [0xA1, 2]] ∧
    (traceOf 6 nestedDupArray).chunks.get? 1 = (traceOf 6 nestedDupArray).chunks.get? 3 ∧
    (traceOf 6 nestedDupArray).objects = 4 :=
  ⟨rfl, rfl, rfl⟩

/-- Claim C6 amended: deduplication compares the full serialized chunk
list of an occurrence (its own chunk plus its newly emitted descendant
chunks) against the memo, so only occurrences whose full chunk lists are
byte-identical collapse — which always holds for repeated leaf values.
For the spec's example `{"a": "iOS", "b": "iOS"}`: the second `"iOS"`
occurrence reuses the first one's index 3 (the dictionary chunk is
`[0xD2, 1, 2, 3, 3]` — both value references name index 3), the stored
object count 4 is strictly less than the naive count 5, and decoding
still yields `"iOS"` at both positions. -/
theorem C6_amended_dedup_chunk_lists :
    (traceOf 6 iosDict).objects = 4 ∧
    naiveCount 6 iosDict = 5 ∧
    (traceOf 6 iosDict).objects < naiveCount 6 iosDict ∧
    (traceOf 6 iosDict).chunks =
      [[0xD2, 1, 2, 3, 3], [0x51, 0x61], [0x51, 0x62], [0x53, 0x69, 0x4F, 0x53]] ∧
    (traceOf 6 iosDict).memo.length = 4 ∧
    parsePlist 6 (traceOf 6 iosDict).out = .ok iosDict :=
  ⟨rfl, rfl, by decide, rfl, rfl, rfl⟩

end PlistModel

namespace PlistModel

/-! ## Round-trip machinery -/

/-- The absolute byte position of chunk `i`: 8 bytes of magic plus the
lengths of the preceding chunks. -/
def posIdx (C : List Chunk) (i : Nat) : Nat := 8 + ((C.take i).flatten).length

/-- Object `idx` decodes to `v` (for the given fuel) in the buffer laid
out as magic, flattened chunks, and an arbitrary suffix, with the offset
table derived from the chunks. -/
def DecAt (C : List Chunk) (suffix : List Nat) (tr : Trailer) (fuel idx : Nat)
    (v : Plist) : Prop :=
  ∃ rem, parseObject (magic ++ C.flatten ++ suffix) (offsetsAcc 0 C) tr fuel
    (posIdx C idx) = .ok (rem, v)

/-- A memo entry whose chunk list coincides with the final chunk list at
its indices. -/
def AlignedEntry (C : List Chunk) (e : Nat × List Chunk) : Prop :=
  ∀ k < e.2.length, C.get? (e.1 + k) = e.2.get? k

theorem offsetsAcc_length (C : List Chunk) : ∀ pos, (offsetsAcc pos C).length = C.length := by
  induction C with
  | nil => intro pos; rfl
  | cons c cs ih => intro pos; simp [offsetsAcc, ih]

theorem offsetsAcc_get? (C : List Chunk) :
    ∀ pos i, i < C.length → (offsetsAcc pos C).get? i =
      some (pos + 8 + ((C.take i).flatten).length) := by
  induction C with
  | nil => intro pos i h; simp at h
  | cons c cs ih =>
    intro pos i h
    cases i with
    | zero => simp [offsetsAcc]
    | succ i =>
      have := ih (pos + c.length) i (by simpa using h)
      simp only [offsetsAcc, List.get?_cons_succ, this, List.take_succ_cons, List.flatten_cons,
        List.length_append, Option.some.injEq]
      omega

theorem drop_at_posIdx (C : List Chunk) (suffix : List Nat) (i : Nat) (c : Chunk)
    (h : C.get? i = some c) :
    (magic ++ C.flatten ++ suffix).drop (posIdx C i) =
      c ++ ((C.drop (i + 1)).flatten ++ suffix) := by
  have hi : i < C.length := by
    by_contra hge
    rw [List.get?_eq_none.mpr (by omega)] at h
    exact Option.noConfusion h
  have hc : C[i] = c := by
    have := List.get?_eq_getElem? C i
    rw [this, List.getElem?_eq_getElem hi] at h
    exact Option.some.inj h
  rw [List.append_assoc, posIdx]
  rw [show (8 : Nat) + ((C.take i).flatten).length = magic.length + ((C.take i).flatten).length
    from rfl]
  rw [List.drop_append]
  have hsplit : C.flatten = (C.take i).flatten ++ (C.drop i).flatten := by
    rw [← List.flatten_append, List.take_append_drop]
  rw [hsplit, List.append_assoc, List.drop_left]
  rw [List.drop_eq_getElem_cons hi, List.flatten_cons, hc, List.append_assoc]

end PlistModel

namespace PlistModel

theorem parseHeader_cons (b : Nat) (rest : List Nat) :
    parseHeader (b :: rest) = .ok (rest, (b / 16 % 16, b % 16)) := by
  simp [parseHeader, rdBe, beNat, Nat.succ_le_succ]

theorem rdTake_append (n : Nat) (bs rest : List Nat) (hlen : bs.length = n) :
    rdTake n (bs ++ rest) = .ok (rest, bs) := by
  subst hlen
  simp [rdTake, List.take_left, List.drop_left]

theorem beBytes_length (w : Nat) : ∀ n, (beBytes w n).length = w := by
  induction w with
  | zero => intro n; rfl
  | succ w ih => intro n; simp [beBytes, ih]

theorem beNat_append_singleton (bs : List Nat) (b : Nat) :
    beNat (bs ++ [b]) = beNat bs * 256 + b := by
  simp [beNat, List.foldl_append]

theorem beNat_beBytes (w : Nat) : ∀ n, beNat (beBytes w n) = n % 256 ^ w := by
  induction w with
  | zero => intro n; simp [beBytes, beNat, Nat.mod_one]
  | succ w ih =>
    intro n
    rw [beBytes, beNat_append_singleton, ih]
    have h256 : (256 : Nat) ^ (w + 1) = 256 * 256 ^ w := by ring
    rw [h256, Nat.mod_mul]
    omega

theorem rdBeCount_one (bs : List Nat) :
    ∀ rest, rdBeCount 1 bs.length (bs ++ rest) = .ok (rest, bs) := by
  induction bs with
  | nil => intro rest; simp [rdBeCount]
  | cons b bs ih =>
    intro rest
    rw [List.length_cons, rdBeCount]
    rw [show (b :: bs) ++ rest = [b] ++ (bs ++ rest) from rfl]
    rw [rdBe_append 1 [b] (bs ++ rest) rfl]
    simp only [Res.bind_ok]
    rw [ih rest]
    simp [beNat]

theorem rdBeCount_width (w : Nat) (os : List Nat) :
    ∀ rest, (∀ o ∈ os, o < 256 ^ w) →
      rdBeCount w os.length ((os.flatMap (beBytes w)) ++ rest) = .ok (rest, os) := by
  induction os with
  | nil => intro rest _; simp [rdBeCount]
  | cons o os ih =>
    intro rest hbound
    rw [List.length_cons, rdBeCount, List.flatMap_cons, List.append_assoc]
    rw [rdBe_append w (beBytes w o) _ (beBytes_length w o)]
    simp only [Res.bind_ok]
    rw [ih rest fun x hx => hbound x (by simp [hx])]
    simp only [Res.bind_ok, beNat_beBytes]
    rw [Nat.mod_eq_of_lt (hbound o (by simp))]

theorem widthForCount_cases (n : Nat) :
    widthForCount n = 1 ∨ widthForCount n = 2 ∨ widthForCount n = 4 ∨ widthForCount n = 8 := by
  unfold widthForCount
  split_ifs <;> simp

theorem generateOffsetTable_ok (w : Nat) (hw : w = 1 ∨ w = 2 ∨ w = 4 ∨ w = 8) :
    ∀ os : List Nat, generateOffsetTable w os = .ok (os.flatMap (beBytes w)) := by
  intro os
  induction os with
  | nil => rcases hw with h | h | h | h <;> subst h <;> rfl
  | cons o os ih =>
    rcases hw with h | h | h | h <;> subst h <;>
      (rw [generateOffsetTable]; rw [show generateOffsetTable _ os = _ from ih]; rfl)

end PlistModel

namespace PlistModel

/-- The header byte written by `serialize_length` carries the type code
in the high nibble, and the length record it emits reads back as the
original length. -/
theorem parse_serializeLength (code len : Nat) (hcode : code < 16) (hlen : len ≤ 255)
    (rest : List Nat) :
    (serializeLength code len).1 / 16 % 16 = code ∧
    parseLen ((serializeLength code len).2 ++ rest) ((serializeLength code len).1 % 16) =
      .ok (rest, len) := by
  unfold serializeLength
  by_cases h : len < 0xF
  · rw [if_pos h]
    dsimp only
    constructor
    · have hlt : code % 16 * 16 + len % 16 < 256 := by omega
      rw [Nat.mod_eq_of_lt hlt]
      omega
    · rw [parseLen]
      have hlt : code % 16 * 16 + len % 16 < 256 := by omega
      rw [Nat.mod_eq_of_lt hlt]
      rw [if_neg (by omega)]
      simp only [List.nil_append, Res.ok.injEq, Prod.mk.injEq]
      exact ⟨trivial, by omega⟩
  · rw [if_neg h]
    dsimp only
    have hw : widthForCount len = 1 := by unfold widthForCount; rw [if_pos hlen]
    constructor
    · omega
    · rw [parseLen, if_pos (by omega)]
      unfold serializeCount
      rw [hw]
      dsimp only
      rw [show beBytes 1 len = [len % 256] from rfl]
      rw [show ([1 * 16 % 256, len % 256] ++ rest : List Nat) =
        [1 * 16 % 256] ++ ([len % 256] ++ rest) from rfl]
      rw [parseCount, rdBe_append 1 [1 * 16 % 256] ([len % 256] ++ rest) rfl]
      simp only [Res.bind_ok]
      rw [show beNat [1 * 16 % 256] % 16 = 0 from rfl]
      rw [show (1 <<< 0 : Nat) = 1 from rfl]
      rw [rdBe_append 1 [len % 256] rest rfl]
      rw [show beNat [len % 256] = len % 256 from by simp [beNat]]
      rw [Nat.mod_eq_of_lt (by omega)]

end PlistModel

namespace PlistModel

theorem parseObjListH_sem (po : ObjParser) (o : List Nat) :
    ∀ (idxs : List Nat) (vs : List Plist),
      List.Forall₂ (fun idx v => ∃ off, o.get? idx = some off ∧
        ∃ rem, po off = .ok (rem, v)) idxs vs →
      parseObjListH po o idxs = .ok vs := by
  intro idxs vs h
  induction h with
  | nil => rfl
  | cons hp _ ih =>
    obtain ⟨off, hoff, rem, hpo⟩ := hp
    rw [parseObjListH, hoff]
    dsimp only
    rw [hpo]
    simp only [Res.bind_ok]
    rw [ih]
    rfl

theorem parseKeyListH_sem (po : ObjParser) (o : List Nat) :
    ∀ (idxs : List Nat) (ks : List (List Nat)),
      List.Forall₂ (fun idx k => ∃ off, o.get? idx = some off ∧
        ∃ rem, po off = .ok (rem, .string k)) idxs ks →
      parseKeyListH po o idxs = .ok ks := by
  intro idxs ks h
  induction h with
  | nil => rfl
  | cons hp _ ih =>
    obtain ⟨off, hoff, rem, hpo⟩ := hp
    rw [parseKeyListH, hoff]
    dsimp only
    rw [hpo]
    simp only [Res.bind_ok]
    rw [ih]
    rfl

theorem parsePairListH_sem (po : ObjParser) (o : List Nat) :
    ∀ (pairs : List (List Nat × Nat)) (qs : List (List Nat × Plist)),
      List.Forall₂ (fun p q => p.1 = q.1 ∧ ∃ off, o.get? p.2 = some off ∧
        ∃ rem, po off = .ok (rem, q.2)) pairs qs →
      parsePairListH po o pairs = .ok qs := by
  intro pairs qs h
  induction h with
  | nil => rfl
  | @cons p q l1 l2 hp hrest ih =>
    obtain ⟨k, vi⟩ := p
    obtain ⟨k2, vq⟩ := q
    obtain ⟨hfst, off, hoff, rem, hpo⟩ := hp
    dsimp only at hfst hoff hpo
    subst hfst
    rw [parsePairListH, hoff]
    dsimp only
    rw [hpo]
    simp only [Res.bind_ok]
    rw [ih]
    rfl

theorem forall₂_zip_keys {β : Type} (R : Nat → β → Prop) :
    ∀ (ps : List (List Nat × β)) (idxs : List Nat),
      List.Forall₂ R idxs (ps.map Prod.snd) →
      List.Forall₂ (fun (p : List Nat × Nat) (q : List Nat × β) => p.1 = q.1 ∧ R p.2 q.2)
        ((ps.map Prod.fst).zip idxs) ps := by
  intro ps
  induction ps with
  | nil =>
    intro idxs h
    cases h
    exact .nil
  | cons p rest ih =>
    intro idxs h
    cases h with
    | cons hp hrest =>
      rename_i idx idxs'
      exact .cons ⟨rfl, hp⟩ (ih idxs' hrest)

end PlistModel

namespace PlistModel

theorem lt_length_of_drop_cons {D : List Nat} {p x : Nat} {rest : List Nat}
    (h : D.drop p = x :: rest) : p < D.length := by
  by_contra hge
  rw [List.drop_eq_nil_of_le (by omega)] at h
  exact List.noConfusion h

theorem decode_bool (D : List Nat) (o : List Nat) (tr : Trailer) (fuel p : Nat) (b : Bool)
    (rest : List Nat) (hdrop : D.drop p = (if b then 9 else 8) :: rest) :
    parseObject D o tr (fuel + 1) p = .ok (rest, .boolean b) := by
  have hp : p ≤ D.length := le_of_lt (lt_length_of_drop_cons hdrop)
  rw [parseObject, if_pos hp, hdrop]
  cases b <;> simp [parseHeader_cons, parseBool]

theorem decode_integer (D : List Nat) (o : List Nat) (tr : Trailer) (fuel p : Nat)
    (n : Int) (hn0 : 0 <= n) (hn : n < 2 ^ 63) (marker : Nat) (bs rest : List Nat)
    (hser : serializeInteger 0x1 n = .ok (marker, bs))
    (hdrop : D.drop p = (marker :: bs) ++ rest) :
    parseObject D o tr (fuel + 1) p = .ok (rest, .integer n) := by
  have hp : p <= D.length := le_of_lt (lt_length_of_drop_cons hdrop)
  rw [parseObject, if_pos hp, hdrop]
  unfold serializeInteger at hser
  rw [if_pos hn0] at hser
  dsimp only at hser
  have hv63 : n.toNat < 2 ^ 63 := by omega
  by_cases h1 : n.toNat <= 0xFF
  · rw [if_pos h1] at hser
    simp only [Res.ok.injEq, Prod.mk.injEq] at hser
    obtain ⟨hm, hb⟩ := hser
    subst hm; subst hb
    rw [show ((0x1 * 16 : Nat) % 256 ||| 0x0) = 16 from rfl]
    rw [List.cons_append, parseHeader_cons]
    simp only [Res.bind_ok]
    show parseInteger ([n.toNat % 256] ++ rest) (16 % 16) = _
    rw [show (16 % 16 : Nat) = 0 from rfl, parseInteger]
    rw [show (1 <<< 0 : Nat) = 1 from rfl]
    rw [rdBe_append 1 [n.toNat % 256] rest rfl]
    simp only [Res.bind_ok, Res.ok.injEq, Prod.mk.injEq, beNat, List.foldl_cons,
      List.foldl_nil]
    exact ⟨trivial, by congr 1; omega⟩
  · rw [if_neg h1] at hser
    by_cases h2 : n.toNat <= 0xFFFF
    · rw [if_pos h2] at hser
      simp only [Res.ok.injEq, Prod.mk.injEq] at hser
      obtain ⟨hm, hb⟩ := hser
      subst hm; subst hb
      rw [show ((0x1 * 16 : Nat) % 256 ||| 0x1) = 17 from rfl]
      rw [List.cons_append, parseHeader_cons]
      simp only [Res.bind_ok]
      show parseInteger (beBytes 2 n.toNat ++ rest) (17 % 16) = _
      rw [show (17 % 16 : Nat) = 1 from rfl, parseInteger]
      rw [show (1 <<< 1 : Nat) = 2 from rfl]
      rw [rdBe_append 2 (beBytes 2 n.toNat) rest (beBytes_length 2 _)]
      simp only [Res.bind_ok, Res.ok.injEq, Prod.mk.injEq, beNat_beBytes]
      exact ⟨trivial, by congr 1; omega⟩
    · rw [if_neg h2] at hser
      by_cases h3 : n.toNat <= 0xFFFFFFFF
      · rw [if_pos h3] at hser
        simp only [Res.ok.injEq, Prod.mk.injEq] at hser
        obtain ⟨hm, hb⟩ := hser
        subst hm; subst hb
        rw [show ((0x1 * 16 : Nat) % 256 ||| 0x2) = 18 from rfl]
        rw [List.cons_append, parseHeader_cons]
        simp only [Res.bind_ok]
        show parseInteger (beBytes 4 n.toNat ++ rest) (18 % 16) = _
        rw [show (18 % 16 : Nat) = 2 from rfl, parseInteger]
        rw [show (1 <<< 2 : Nat) = 4 from rfl]
        rw [rdBe_append 4 (beBytes 4 n.toNat) rest (beBytes_length 4 _)]
        simp only [Res.bind_ok, Res.ok.injEq, Prod.mk.injEq, beNat_beBytes]
        exact ⟨trivial, by congr 1; omega⟩
      · rw [if_neg h3] at hser
        simp only [Res.ok.injEq, Prod.mk.injEq] at hser
        obtain ⟨hm, hb⟩ := hser
        subst hm; subst hb
        rw [show ((0x1 * 16 : Nat) % 256 ||| 0x3) = 19 from rfl]
        rw [List.cons_append, parseHeader_cons]
        simp only [Res.bind_ok]
        show parseInteger (beBytes 8 n.toNat ++ rest) (19 % 16) = _
        rw [show (19 % 16 : Nat) = 3 from rfl, parseInteger]
        rw [show (1 <<< 3 : Nat) = 8 from rfl]
        rw [rdBe_append 8 (beBytes 8 n.toNat) rest (beBytes_length 8 _)]
        simp only [Res.bind_ok, Res.ok.injEq, Prod.mk.injEq, beNat_beBytes]
        refine ⟨trivial, ?_⟩
        rw [Nat.mod_eq_of_lt (by omega)]
        unfold toI64
        rw [if_pos hv63]
        exact congrArg Plist.integer (Int.toNat_of_nonneg hn0)

theorem decode_string (D : List Nat) (o : List Nat) (tr : Trailer) (fuel p : Nat)
    (s rest : List Nat) (hs : s.length <= 255)
    (hdrop : D.drop p =
      ((serializeLength 0x5 s.length).1 :: ((serializeLength 0x5 s.length).2 ++ s)) ++ rest) :
    parseObject D o tr (fuel + 1) p = .ok (rest, .string s) := by
  have hp : p <= D.length := le_of_lt (lt_length_of_drop_cons hdrop)
  obtain ⟨htype, hplen⟩ := parse_serializeLength 0x5 s.length (by norm_num) hs (s ++ rest)
  rw [parseObject, if_pos hp, hdrop, List.cons_append, parseHeader_cons]
  simp only [Res.bind_ok]
  rw [htype]
  rw [parseString]
  rw [show ((serializeLength 0x5 s.length).2 ++ s) ++ rest =
    (serializeLength 0x5 s.length).2 ++ (s ++ rest) from by rw [List.append_assoc]]
  rw [hplen]
  simp only [Res.bind_ok]
  rw [rdTake_append s.length s rest rfl]
  simp only [Res.bind_ok]

end PlistModel

namespace PlistModel

theorem drop_succ_of_drop_cons {D : List Nat} {p x : Nat} {t : List Nat}
    (h : D.drop p = x :: t) : D.drop (p + 1) = t := by
  have h2 := congrArg (List.drop 1) h
  rw [List.drop_drop] at h2
  simpa [Nat.add_comm] using h2

theorem widthForCount_le_8 (n : Nat) : widthForCount n ≤ 8 := by
  rcases widthForCount_cases n with h | h | h | h <;> omega

theorem serializeLength_snd_length (code len : Nat) :
    (serializeLength code len).2.length ≤ 9 := by
  unfold serializeLength
  by_cases h : len < 0xF
  · rw [if_pos h]
    simp
  · rw [if_neg h]
    simp only [serializeCount, List.length_cons, beBytes_length]
    have := widthForCount_le_8 len
    omega

theorem serializeInteger_ok_length {code : Nat} {n : Int} {m : Nat} {bs : List Nat}
    (h : serializeInteger code n = .ok (m, bs)) : bs.length ≤ 8 := by
  unfold serializeInteger at h
  by_cases h0 : 0 ≤ n
  · rw [if_pos h0] at h
    dsimp only at h
    split_ifs at h <;>
      (simp only [Res.ok.injEq, Prod.mk.injEq] at h; obtain ⟨_, hb⟩ := h; subst hb;
       simp [beBytes_length])
  · rw [if_neg h0] at h
    exact Res.noConfusion h

theorem flatten_length_le (C : List Chunk) (h : ∀ c ∈ C, c.length ≤ 600) :
    C.flatten.length ≤ 600 * C.length := by
  induction C with
  | nil => simp
  | cons c cs ih =>
    simp only [List.flatten_cons, List.length_append, List.length_cons]
    have h1 := h c (by simp)
    have h2 := ih fun x hx => h x (by simp [hx])
    omega

/-- The semantic contract of `collect_objects` relative to a final chunk
list `C`, a buffer suffix, and a trailer: under the structural invariants
(1-byte refs, aligned memo, chunks placed at the counter's positions) the
reference emitted for `v` is a single in-range index at which the reader
decodes `v` back (at the same fuel). -/
def CollectSem (C : List Chunk) (suffix : List Nat) (tr : Trailer) (fuel : Nat) : Prop :=
  ∀ st memo v st' memo' chunks ref,
    collectObjects fuel st memo v = .ok (st', memo', chunks, ref) →
    Wf v → st.refSize = 1 → LastClosed memo →
    (∀ e ∈ memo, AlignedEntry C e) →
    (∀ k < chunks.length, C.get? (st.objects + k) = chunks.get? k) →
    (∀ e ∈ memo', AlignedEntry C e) ∧
    (∀ c ∈ chunks, c.length ≤ 600) ∧
    (memo = [] → chunks ≠ []) ∧
    ∃ idx, ref = [idx] ∧ idx < C.length ∧ DecAt C suffix tr fuel idx v ∧
      (chunks ≠ [] → idx = st.objects)

end PlistModel

namespace PlistModel

/-- Semantic contract of the element-collection loop: each element's
reference bytes form one in-range index byte at which the reader decodes
that element. -/
theorem collectList_sem (C : List Chunk) (suffix : List Nat) (tr : Trailer) (fuel : Nat)
    (ihc : CollectSem C suffix tr fuel) :
    ∀ (vs : List Plist) st memo buffer datas st' memo' buffer' datas',
      collectListH (collectObjects fuel) st memo buffer datas vs =
        .ok (st', memo', buffer', datas') →
      (∀ v ∈ vs, Wf v) → st.refSize = 1 → LastClosed memo →
      (∀ e ∈ memo, AlignedEntry C e) →
      (∀ k, datas.length + k < datas'.length →
        C.get? (st.objects + k) = datas'.get? (datas.length + k)) →
      (∀ e ∈ memo', AlignedEntry C e) ∧
      (∀ c ∈ datas', c ∈ datas ∨ c.length ≤ 600) ∧
      ∃ idxs, buffer' = buffer ++ idxs ∧
        List.Forall₂ (fun idx v => idx < C.length ∧ DecAt C suffix tr fuel idx v) idxs vs := by
  intro vs
  induction vs with
  | nil =>
    intro st memo buffer datas st' memo' buffer' datas' h hwf hrs hlc halign hplace
    simp only [collectListH, Res.ok.injEq, Prod.mk.injEq] at h
    obtain ⟨h1, h2, h3, h4⟩ := h
    subst h1; subst h2; subst h3; subst h4
    exact ⟨halign, fun c hc => .inl hc, [], by simp, .nil⟩
  | cons v rest ih =>
    intro st memo buffer datas st' memo' buffer' datas' h hwf hrs hlc halign hplace
    simp only [collectListH] at h
    rw [Res.bind_eq_ok] at h
    obtain ⟨⟨st1, memo1, data, refB⟩, hc, htail⟩ := h
    obtain ⟨hrs1, hobj1, hne1, Δ1, hm1, hlen1, hseg1, hdup1, hlast1, hlc1⟩ :=
      collectObjects_spec fuel st memo v st1 memo1 data refB hc hlc
    obtain ⟨hrs2, ⟨ext2, hbuf2⟩, nc2, Δ2, hd2, hm2, hobj2, hne2, hlen2, hseg2, hdup2,
      hlast2, hlc2⟩ :=
      collectListH_spec (collectObjects fuel) (collectObjects_spec fuel) rest st1 memo1
        (buffer ++ refB) (datas ++ data) st' memo' buffer' datas' htail
        (by rw [hm1]; exact hlc1)
    have hlendatas : datas'.length = datas.length + data.length + nc2.length := by
      rw [hd2]
      simp
      omega
    have hplaceChild : ∀ k < data.length, C.get? (st.objects + k) = data.get? k := by
      intro k hk
      have hb : datas.length + k < datas'.length := by omega
      have := hplace k hb
      rw [hd2] at this
      rw [List.append_assoc] at this
      rw [List.get?_append_right (by omega)] at this
      simp only [Nat.add_sub_cancel_left] at this
      rw [List.get?_append hk] at this
      exact this
    obtain ⟨halign1, hchunk1, hroot1, idx, href, hidx, hdec, _⟩ :=
      ihc st memo v st1 memo1 data refB hc (hwf v (by simp)) hrs hlc halign hplaceChild
    have hplaceTail : ∀ k, (datas ++ data).length + k < datas'.length →
        C.get? (st1.objects + k) = datas'.get? ((datas ++ data).length + k) := by
      intro k hk
      rw [List.length_append] at hk ⊢
      have h1 : st1.objects + k = st.objects + (data.length + k) := by omega
      have h2 : datas.length + data.length + k = datas.length + (data.length + k) := by omega
      rw [h1, h2]
      exact hplace (data.length + k) (by omega)
    obtain ⟨halign', hchunk', idxs, hbuf', hfa⟩ :=
      ih st1 memo1 (buffer ++ refB) (datas ++ data) st' memo' buffer' datas' htail
        (fun w hw => hwf w (by simp [hw])) (by rw [hrs1, hrs]) (by rw [hm1]; exact hlc1)
        halign1 hplaceTail
    refine ⟨halign', ?_, idx :: idxs, ?_, .cons ⟨hidx, hdec⟩ hfa⟩
    · intro c hcm
      rcases hchunk' c hcm with hcd | hcb
      · rcases List.mem_append.mp hcd with hcd | hcd
        · exact .inl hcd
        · exact .inr (hchunk1 c hcd)
      · exact .inr hcb
    · rw [hbuf', href, List.append_assoc]
      rfl

end PlistModel

namespace PlistModel

/-- Semantic contract of `serialize_object`: the chunk built for a
well-formed value decodes back to that value wherever it appears in the
buffer, provided its descendant chunks sit at the counter's positions. -/
theorem serialize_sem (C : List Chunk) (suffix : List Nat) (tr : Trailer) (fuel : Nat)
    (htr : tr.objectRefSize = 1) (ihc : CollectSem C suffix tr fuel) (v : Plist)
    (st : WSt) (memo : Memo) (st2 : WSt) (memo2 : Memo) (buffer : Chunk)
    (datas : List Chunk)
    (h : serializeObjectH (collectObjects fuel) st memo v = .ok (st2, memo2, buffer :: datas))
    (hwf : Wf v) (hrs : st.refSize = 1) (hlc : LastClosed memo)
    (halign : ∀ e ∈ memo, AlignedEntry C e)
    (hplace : ∀ k < datas.length, C.get? (st.objects + k) = datas.get? k) :
    (∀ e ∈ memo2, AlignedEntry C e) ∧
    buffer.length ≤ 600 ∧ (∀ c ∈ datas, c.length ≤ 600) ∧
    ∀ p rest, (magic ++ C.flatten ++ suffix).drop p = buffer ++ rest →
      parseObject (magic ++ C.flatten ++ suffix) (offsetsAcc 0 C) tr (fuel + 1) p =
        .ok (rest, v) := by
  cases hwf with
  | boolean b =>
    simp only [serializeObjectH, Res.ok.injEq, Prod.mk.injEq, List.cons.injEq] at h
    obtain ⟨h1, h2, h3, h4⟩ := h
    subst h1; subst h2; subst h3; subst h4
    refine ⟨halign, by cases b <;> simp, by simp, ?_⟩
    intro p rest hdrop
    rw [List.cons_append, List.nil_append] at hdrop
    exact decode_bool _ _ tr fuel p b rest hdrop
  | integer n h0 h63 =>
    simp only [serializeObjectH] at h
    rw [Res.bind_eq_ok] at h
    obtain ⟨⟨marker, bs⟩, hser, hok⟩ := h
    simp only [Res.ok.injEq, Prod.mk.injEq, List.cons.injEq] at hok
    obtain ⟨h1, h2, h3, h4⟩ := hok
    subst h1; subst h2; subst h3; subst h4
    have hbs := serializeInteger_ok_length hser
    refine ⟨halign, by simp; omega, by simp, ?_⟩
    intro p rest hdrop
    exact decode_integer _ _ tr fuel p n h0 h63 marker bs rest hser hdrop
  | string s hslen hsb =>
    simp only [serializeObjectH, Res.ok.injEq, Prod.mk.injEq, List.cons.injEq] at h
    obtain ⟨h1, h2, h3, h4⟩ := h
    subst h1; subst h2; subst h3; subst h4
    have hlb := serializeLength_snd_length 0x5 s.length
    refine ⟨halign, by simp; omega, by simp, ?_⟩
    intro p rest hdrop
    exact decode_string _ _ tr fuel p s rest hslen hdrop
  | array vs hlen helem =>
    simp only [serializeObjectH] at h
    rw [Res.bind_eq_ok] at h
    obtain ⟨⟨st', memo', buffer1, datas1⟩, hl, hok⟩ := h
    simp only [Res.ok.injEq, Prod.mk.injEq, List.cons.injEq] at hok
    obtain ⟨h1, h2, h3, h4⟩ := hok
    rw [h1, h2, h3, h4] at hl
    obtain ⟨halign2, hchunk2, idxs, hbuf, hfa⟩ :=
      collectList_sem C suffix tr fuel ihc vs st memo _ [] st2 memo2 buffer datas hl
        helem hrs hlc halign (fun k hk => by simpa using hplace k (by simpa using hk))
    have hlenIdxs : idxs.length = vs.length := hfa.length_eq
    have hlb := serializeLength_snd_length 0xA vs.length
    refine ⟨halign2, ?_, ?_, ?_⟩
    · rw [hbuf]
      simp only [List.length_append, List.length_cons]
      omega
    · intro c hc
      rcases hchunk2 c hc with hc1 | hc1
      · simp at hc1
      · exact hc1
    · intro p rest hdrop
      have hbufc : buffer = (serializeLength 0xA vs.length).1 ::
          ((serializeLength 0xA vs.length).2 ++ idxs) := by
        rw [hbuf, List.cons_append]
      rw [hbufc, List.cons_append,
        List.append_assoc (serializeLength 0xA vs.length).2 idxs rest] at hdrop
      obtain ⟨htype, hplen⟩ := parse_serializeLength 0xA vs.length (by norm_num) hlen
        (idxs ++ rest)
      have hp : p < (magic ++ C.flatten ++ suffix).length := lt_length_of_drop_cons hdrop
      rw [parseObject, if_pos (le_of_lt hp), hdrop, parseHeader_cons]
      simp only [Res.bind_ok]
      rw [htype]
      rw [parseArayH, if_pos (by omega)]
      rw [drop_succ_of_drop_cons hdrop, hplen]
      simp only [Res.bind_ok]
      rw [htr, rdRefs, ← hlenIdxs, rdBeCount_one idxs rest]
      simp only [Res.bind_ok]
      rw [parseObjListH_sem (parseObject (magic ++ C.flatten ++ suffix) (offsetsAcc 0 C)
        tr fuel) (offsetsAcc 0 C) idxs vs
        (hfa.imp fun idx w hw => ⟨posIdx C idx,
          by rw [offsetsAcc_get? C 0 idx hw.1]; simp [posIdx], hw.2⟩)]
      simp only [Res.bind_ok]
  | dictionary ps hlen hklen hkbytes hvwf =>
    simp only [serializeObjectH] at h
    rw [Res.bind_eq_ok] at h
    obtain ⟨⟨st', memo', buffer1, datas1⟩, hk, h⟩ := h
    rw [Res.bind_eq_ok] at h
    obtain ⟨⟨st'', memo'', buffer2, datas2⟩, hv, hok⟩ := h
    simp only [Res.ok.injEq, Prod.mk.injEq, List.cons.injEq] at hok
    obtain ⟨h1, h2, h3, h4⟩ := hok
    rw [h1, h2, h3, h4] at hv
    rw [collectKeysH_eq] at hk
    dsimp only at hv
    rw [collectValsH_eq] at hv
    obtain ⟨hrsK, ⟨extK, hbufK0⟩, ncK, ΔK, hdK, hmK, hobjK, hneK, hlenK0, hsegK, hdupK,
      hlastK, hlcK⟩ :=
      collectListH_spec (collectObjects fuel) (collectObjects_spec fuel) _ st memo _ []
        st' memo' buffer1 datas1 hk hlc
    simp only [List.nil_append] at hdK
    subst hdK
    obtain ⟨hrsV, ⟨extV, hbufV0⟩, ncV, ΔV, hdV, hmV, hobjV, hneV, hlenV0, hsegV, hdupV,
      hlastV, hlcV⟩ :=
      collectListH_spec (collectObjects fuel) (collectObjects_spec fuel) _ st' memo'
        buffer1 datas1 st2 memo2 buffer datas hv (by rw [hmK]; exact hlcK)
    have hplaceK : ∀ k, ([] : List Chunk).length + k < datas1.length →
        C.get? (st.objects + k) = datas1.get? (([] : List Chunk).length + k) := by
      intro k hk2
      simp only [List.length_nil, Nat.zero_add] at hk2 ⊢
      have hkd : k < datas.length := by
        rw [hdV, List.length_append]
        omega
      have := hplace k hkd
      rw [hdV, List.get?_append hk2] at this
      exact this
    obtain ⟨halignK, hchunkK, kidxs, hbufK, hfaK⟩ :=
      collectList_sem C suffix tr fuel ihc _ st memo _ [] st' memo' buffer1 datas1 hk
        (by
          intro w hw
          obtain ⟨q, hq, hqe⟩ := List.mem_map.mp hw
          subst hqe
          exact Wf.string _ (hklen q hq) (hkbytes q hq))
        hrs hlc halign hplaceK
    have hplaceV : ∀ k, datas1.length + k < datas.length →
        C.get? (st'.objects + k) = datas.get? (datas1.length + k) := by
      intro k hk2
      have hobj : st'.objects = st.objects + datas1.length := hobjK
      rw [hobj]
      have h1 : st.objects + datas1.length + k = st.objects + (datas1.length + k) := by omega
      rw [h1]
      exact hplace (datas1.length + k) hk2
    obtain ⟨halignV, hchunkV, vidxs, hbufV, hfaV⟩ :=
      collectList_sem C suffix tr fuel ihc _ st' memo' buffer1 datas1 st2 memo2 buffer
        datas hv
        (by
          intro w hw
          obtain ⟨q, hq, hqe⟩ := List.mem_map.mp hw
          subst hqe
          exact hvwf q hq)
        (by rw [hrsK, hrs]) (by rw [hmK]; exact hlcK) halignK hplaceV
    have hlk : kidxs.length = ps.length := by
      have := hfaK.length_eq
      simpa using this
    have hlv : vidxs.length = ps.length := by
      have := hfaV.length_eq
      simpa using this
    have hlb := serializeLength_snd_length 0xD ps.length
    refine ⟨halignV, ?_, ?_, ?_⟩
    · rw [hbufV, hbufK]
      simp only [List.length_append, List.length_cons]
      omega
    · intro c hc
      rcases hchunkV c hc with hc1 | hc1
      · rcases hchunkK c hc1 with hc2 | hc2
        · simp at hc2
        · exact hc2
      · exact hc1
    · intro p rest hdrop
      have hbufc : buffer = (serializeLength 0xD ps.length).1 ::
          (((serializeLength 0xD ps.length).2 ++ kidxs) ++ vidxs) := by
        rw [hbufV, hbufK, List.cons_append, List.cons_append, List.append_assoc]
      rw [hbufc, List.cons_append,
        List.append_assoc ((serializeLength 0xD ps.length).2 ++ kidxs) vidxs rest,
        List.append_assoc (serializeLength 0xD ps.length).2 kidxs (vidxs ++ rest)] at hdrop
      obtain ⟨htype, hplen⟩ := parse_serializeLength 0xD ps.length (by norm_num) hlen
        (kidxs ++ (vidxs ++ rest))
      have hp : p < (magic ++ C.flatten ++ suffix).length := lt_length_of_drop_cons hdrop
      rw [parseObject, if_pos (le_of_lt hp), hdrop, parseHeader_cons]
      simp only [Res.bind_ok]
      rw [htype]
      rw [parseDictH, if_pos (by omega)]
      rw [drop_succ_of_drop_cons hdrop, hplen]
      simp only [Res.bind_ok]
      rw [htr, rdRefs, ← hlk, rdBeCount_one kidxs (vidxs ++ rest)]
      simp only [Res.bind_ok]
      rw [show kidxs.length = vidxs.length from by rw [hlk, hlv], rdRefs,
        rdBeCount_one vidxs rest]
      simp only [Res.bind_ok]
      have hfaK2 : List.Forall₂ (fun idx k => ∃ off, (offsetsAcc 0 C).get? idx = some off ∧
          ∃ rem, parseObject (magic ++ C.flatten ++ suffix) (offsetsAcc 0 C) tr fuel off =
            .ok (rem, .string k)) kidxs (ps.map Prod.fst) := by
        rw [List.forall₂_map_right_iff]
        have hfaK1 := List.forall₂_map_right_iff.mp hfaK
        exact hfaK1.imp fun idx q hq => ⟨posIdx C idx,
          by rw [offsetsAcc_get? C 0 idx hq.1]; simp [posIdx], hq.2⟩
      rw [parseKeyListH_sem _ _ kidxs (ps.map Prod.fst) hfaK2]
      simp only [Res.bind_ok]
      have hfaV2 : List.Forall₂ (fun idx w => ∃ off, (offsetsAcc 0 C).get? idx = some off ∧
          ∃ rem, parseObject (magic ++ C.flatten ++ suffix) (offsetsAcc 0 C) tr fuel off =
            .ok (rem, w)) vidxs (ps.map Prod.snd) :=
        hfaV.imp fun idx w hw => ⟨posIdx C idx,
          by rw [offsetsAcc_get? C 0 idx hw.1]; simp [posIdx], hw.2⟩
      rw [parsePairListH_sem _ _ _ ps (forall₂_zip_keys _ ps vidxs hfaV2)]
      simp only [Res.bind_ok]

end PlistModel

namespace PlistModel

theorem get?_some_lt {l : List Chunk} {i : Nat} {c : Chunk} (h : l.get? i = some c) :
    i < l.length := by
  by_contra hge
  rw [List.get?_eq_none.mpr (by omega)] at h
  exact Option.noConfusion h

/-- `collect_objects` satisfies its semantic contract at every fuel:
well-formed values are collected into chunks the reader decodes back. -/
theorem collect_sem (C : List Chunk) (suffix : List Nat) (tr : Trailer)
    (htr : tr.objectRefSize = 1) (hC : C.length ≤ 255) :
    ∀ fuel, CollectSem C suffix tr fuel := by
  intro fuel
  induction fuel with
  | zero =>
    intro st memo v st' memo' chunks ref h
    simp [collectObjects] at h
  | succ fuel ih =>
    intro st memo v st' memo' chunks ref h hwf hrs hlc halign hplace
    simp only [collectObjects] at h
    rw [Res.bind_eq_ok] at h
    obtain ⟨⟨st2, memo2, bytes⟩, hs, h⟩ := h
    obtain ⟨hrs2, buffer, datas, hbytes, hbne, hobj2, hne, Δs, hm2, hlens, hsegs, hdups,
      hlasts, hlcs⟩ := serializeObjectH_spec _ (collectObjects_spec fuel)
        { st with objects := st.objects + 1 } memo v st2 memo2 bytes hs hlc
    subst hbytes
    dsimp only at h hobj2 hsegs
    cases hf : memo2.find? (fun p => p.2 == buffer :: datas) with
    | some p =>
      rw [hf] at h
      obtain ⟨keyIdx, bl⟩ := p
      dsimp only at h
      have hpred : bl = buffer :: datas := by
        have := List.find?_some hf
        simpa using this
      have hmem : (keyIdx, bl) ∈ memo2 := List.mem_of_find?_eq_some hf
      have hdatas : datas = [] := by
        by_contra hnil
        obtain ⟨c, hc⟩ : ∃ c, datas.getLast? = some c := by
          cases hd : datas.getLast? with
          | none => exact absurd (List.getLast?_eq_none_iff.mp hd) hnil
          | some c => exact ⟨c, rfl⟩
        obtain ⟨j, hj⟩ := hlasts c hc
        rw [hm2] at hmem
        rcases List.mem_append.mp hmem with hold | hnew
        · have hlastbl : bl.getLast? = some c := by
            rw [hpred, getLast?_cons_ne _ _ hnil]
            exact hc
          obtain ⟨e2, he2mem, he2⟩ := hlc (keyIdx, bl) hold c hlastbl
          exact hdups (j, [c]) hj e2 he2mem (by rw [he2])
        · have hseg := hsegs (keyIdx, bl) hnew
          have hlen : bl.length ≤ datas.length := by
            obtain ⟨_, hb, _, _⟩ := hseg
            dsimp only at hb
            omega
          rw [hpred] at hlen
          simp at hlen
      subst hdatas
      have hΔnil : Δs = [] := List.eq_nil_of_length_eq_zero (by simpa using hlens)
      subst hΔnil
      simp only [List.append_nil] at hm2
      rw [hpred, hm2] at hmem
      have hrs2' : st2.refSize = 1 := by
        rw [hrs2]
        exact hrs
      rw [show ({ st2 with objects := st2.objects - 1 } : WSt).refSize = st2.refSize
        from rfl, hrs2'] at h
      rw [show serializeRef 1 keyIdx = .ok [keyIdx % 256] from rfl] at h
      simp only [Res.bind_ok, Res.ok.injEq, Prod.mk.injEq] at h
      obtain ⟨h1, h2, h3, h4⟩ := h
      subst h1; subst h2; subst h3; subst h4
      obtain ⟨halign2, hbuflen, hdlen, hdec⟩ :=
        serialize_sem C suffix tr fuel htr ih v _ memo st2 memo2 buffer [] hs hwf hrs hlc
          halign (by intro k hk; simp at hk)
      have hCk : C.get? keyIdx = some buffer := by
        have := halign (keyIdx, [buffer]) hmem 0 (by simp)
        simpa using this
      have hkeyIdx : keyIdx < C.length := get?_some_lt hCk
      refine ⟨by rw [hm2]; exact halign, by simp, ?_, keyIdx, ?_, hkeyIdx, ?_,
        fun hcn => absurd rfl hcn⟩
      · intro hmemo
        subst hmemo
        simp at hmem
      · rw [Nat.mod_eq_of_lt (by omega)]
      · exact ⟨_, hdec (posIdx C keyIdx) _ (drop_at_posIdx C suffix keyIdx buffer hCk)⟩
    | none =>
      rw [hf] at h
      dsimp only at h
      have hrs2' : st2.refSize = 1 := by
        rw [hrs2]
        exact hrs
      rw [hrs2'] at h
      rw [show serializeRef 1 st.objects = .ok [st.objects % 256] from rfl] at h
      simp only [Res.bind_ok, Res.ok.injEq, Prod.mk.injEq] at h
      obtain ⟨h1, h2, h3, h4⟩ := h
      subst h1; subst h2; subst h3; subst h4
      have hC0 : C.get? st.objects = some buffer := by
        have := hplace 0 (by simp)
        simpa using this
      have hstobj : st.objects < C.length := get?_some_lt hC0
      have hpl : ∀ k < datas.length,
          C.get? (st.objects + 1 + k) = datas.get? k := by
        intro k hk
        have := hplace (k + 1) (by simp; omega)
        rw [show st.objects + (k + 1) = st.objects + 1 + k from by omega] at this
        simpa using this
      obtain ⟨halign2, hbuflen, hdlen, hdec⟩ :=
        serialize_sem C suffix tr fuel htr ih v _ memo st2 memo2 buffer datas hs hwf hrs hlc
          halign hpl
      refine ⟨?_, ?_, fun _ => by simp, st.objects, ?_, hstobj, ?_, fun _ => rfl⟩
      · intro e he
        rcases List.mem_append.mp he with hold | hnew
        · exact halign2 e hold
        · simp only [List.mem_singleton] at hnew
          subst hnew
          intro k hk
          exact hplace k (by simpa using hk)
      · intro c hcm
        rcases List.mem_cons.mp hcm with hcc | hcc
        · subst hcc
          exact hbuflen
        · exact hdlen c hcc
      · rw [Nat.mod_eq_of_lt (by omega)]
      · exact ⟨_, hdec (posIdx C st.objects) _ (drop_at_posIdx C suffix st.objects buffer hC0)⟩

end PlistModel

namespace PlistModel

theorem generateTrailer_length (a b c d e : Nat) :
    (generateTrailer a b c d e).length = 32 := by
  simp [generateTrailer, beBytes_length]

theorem widthForCount_eq_one {n : Nat} (h : n ≤ 255) : widthForCount n = 1 := by
  unfold widthForCount
  rw [if_pos (by omega)]

theorem drop_last32 (pre tb : List Nat) (h : tb.length = 32) :
    (pre ++ tb).drop ((pre ++ tb).length - 32) = tb := by
  rw [List.length_append, h, Nat.add_sub_cancel]
  exact List.drop_left pre tb

theorem parseTrailer_gen (osz rsz cnt top start : Nat)
    (hcnt : cnt < 2 ^ 64) (htop : top < 2 ^ 64) (hstart : start < 2 ^ 64) :
    parseTrailer (generateTrailer osz rsz cnt top start) =
      .ok ([], { offsetTableOffsetSize := osz, objectRefSize := rsz, numObjects := cnt,
                 topObjectOffset := top, offsetTableStart := start }) := by
  have e256 : (256 : Nat) ^ 8 = 2 ^ 64 := by norm_num
  rw [parseTrailer]
  rw [show generateTrailer osz rsz cnt top start =
    [0, 0, 0, 0] ++ ([0, 0] ++ ([osz] ++ ([rsz] ++ (beBytes 8 cnt ++ (beBytes 8 top ++
      beBytes 8 start))))) from by simp [generateTrailer]]
  rw [rdTake_append 4 [0, 0, 0, 0] ([0, 0] ++ ([osz] ++ ([rsz] ++ (beBytes 8 cnt ++
    (beBytes 8 top ++ beBytes 8 start))))) rfl]
  simp only [Res.bind_ok]
  rw [rdTake_append 2 [0, 0] ([osz] ++ ([rsz] ++ (beBytes 8 cnt ++ (beBytes 8 top ++
    beBytes 8 start)))) rfl]
  simp only [Res.bind_ok]
  rw [rdBe_append 1 [osz] ([rsz] ++ (beBytes 8 cnt ++ (beBytes 8 top ++ beBytes 8 start)))
    rfl]
  simp only [Res.bind_ok]
  rw [rdBe_append 1 [rsz] (beBytes 8 cnt ++ (beBytes 8 top ++ beBytes 8 start)) rfl]
  simp only [Res.bind_ok]
  rw [rdBe_append 8 (beBytes 8 cnt) (beBytes 8 top ++ beBytes 8 start) (beBytes_length 8 cnt)]
  simp only [Res.bind_ok]
  rw [rdBe_append 8 (beBytes 8 top) (beBytes 8 start) (beBytes_length 8 top)]
  simp only [Res.bind_ok]
  rw [show beBytes 8 start = beBytes 8 start ++ [] from by simp]
  rw [rdBe_append 8 (beBytes 8 start) [] (beBytes_length 8 start)]
  simp only [Res.bind_ok, beNat_beBytes]
  rw [Nat.mod_eq_of_lt (by rw [e256]; exact hcnt),
    Nat.mod_eq_of_lt (by rw [e256]; exact htop),
    Nat.mod_eq_of_lt (by rw [e256]; exact hstart)]
  simp [beNat]

theorem parseOffsetTable_eq (w : Nat) (hw : w = 1 ∨ w = 2 ∨ w = 4 ∨ w = 8)
    (os : List Nat) (rest : List Nat) (hb : ∀ o ∈ os, o < 256 ^ w) :
    parseOffsetTable ((os.flatMap (beBytes w)) ++ rest) os.length w = .ok (rest, os) := by
  rcases hw with h | h | h | h <;> subst h <;>
    exact rdBeCount_width _ os rest hb

theorem mem_offsetsAcc_le_total (C : List Chunk) :
    ∀ pos, ∀ x ∈ offsetsAcc pos C, x ≤ pos + 8 + C.flatten.length := by
  induction C with
  | nil => intro pos x hx; simp [offsetsAcc] at hx
  | cons c cs ih =>
    intro pos x hx
    rw [offsetsAcc, List.mem_cons] at hx
    rcases hx with hx | hx
    · subst hx; simp
    · have := ih (pos + c.length) x hx
      simp only [List.flatten_cons, List.length_append]
      omega

theorem getLastD_mem {l : List Nat} (h : l ≠ []) : l.getLast?.getD 0 ∈ l := by
  rw [List.getLast?_eq_getLast l h]
  exact List.getLast_mem h

end PlistModel

namespace PlistModel

/-- The dictionary `{"a": 1, "b": 2}` from the specification's pairing
example. -/
def dictAB : Plist := .dictionary [([0x61], .integer 1), ([0x62], .integer 2)]

theorem wf_dictAB : Wf dictAB := by
  refine Wf.dictionary _ (by decide) ?_ ?_ ?_
  · intro p hp
    fin_cases hp <;> decide
  · intro p hp
    fin_cases hp <;> decide
  · intro p hp
    fin_cases hp <;> exact Wf.integer _ (by norm_num) (by norm_num)

/-- **C1** (counterexample): `Plist.data []` is finite and contains no
negative integer, yet its encoding does not decode back: `serialize_data`
builds the header as `0x4 | len` instead of `(0x4 << 4) | len`, so the
reader sees type tag `0x0` and fails. -/
theorem C1_counterexample_data_not_round_trip :
    writeTrace 2 (Plist.data []) = .ok (traceOf 2 (Plist.data [])) ∧
    parsePlist 2 (traceOf 2 (Plist.data [])).out = .err :=
  ⟨rfl, rfl⟩

/-- **C1** (amended): the round trip holds on the well-formed fragment —
no `Data`, containers and strings of length at most 255, dictionary keys
of byte values, integers in `[0, 2^63)` — provided the total object count
stays within one reference byte; dictionary key order is preserved
exactly (`ps` decodes to `ps`). As stated the claim is refuted by
`C1_counterexample_data_not_round_trip`. -/
theorem C1_amended_round_trip (fuel : Nat) (v : Plist) (t : WriteTrace)
    (hwf : Wf v) (ht : writeTrace fuel v = .ok t) (hsmall : t.objects ≤ 255) :
    parsePlist fuel t.out = .ok v := by
  rw [writeTrace] at ht
  rw [Res.bind_eq_ok] at ht
  obtain ⟨⟨st, memo, C, ref⟩, hcol, ht⟩ := ht
  dsimp only at ht
  rw [Res.bind_eq_ok] at ht
  obtain ⟨table, htab, ht⟩ := ht
  simp only [Res.ok.injEq] at ht
  subst ht
  dsimp only at hsmall ⊢
  obtain ⟨hrs0, hobj0, hne0, Δ0, hm0, hlen0, hseg0, hdup0, hlast0, hlc0⟩ :=
    collectObjects_spec fuel ⟨0, 1⟩ [] v st memo C ref hcol LastClosed.nil
  dsimp only at hobj0
  have hC : C.length ≤ 255 := by omega
  have hmemolen : memo.length = C.length := by
    rw [hm0]
    simp [hlen0]
  have hrefsz : widthForCount st.objects = 1 := widthForCount_eq_one hsmall
  rw [hrefsz]
  obtain ⟨halignF, hbound, hrootne, idx, hrefidx, hidxlt, hdec, hidx0⟩ :=
    collect_sem C
      (table ++ generateTrailer (widthForCount ((offsetsAcc 0 C).getLast?.getD 0)) 1
        memo.length 0 (C.flatten.length + 8))
      { offsetTableOffsetSize := widthForCount ((offsetsAcc 0 C).getLast?.getD 0),
        objectRefSize := 1, numObjects := memo.length, topObjectOffset := 0,
        offsetTableStart := C.flatten.length + 8 }
      rfl hC fuel ⟨0, 1⟩ [] v st memo C ref hcol hwf rfl LastClosed.nil (by simp)
      (by intro k hk; simp)
  have hCne : C ≠ [] := hrootne rfl
  have hidx00 : idx = 0 := hidx0 hCne
  rw [hidx00] at hdec
  have hflat : C.flatten.length ≤ 153000 := by
    have h1 := flatten_length_le C hbound
    omega
  have hstart64 : C.flatten.length + 8 < 2 ^ 64 := by omega
  have hL : (offsetsAcc 0 C).getLast?.getD 0 < 2 ^ 64 := by
    have hmem := getLastD_mem (offsetsAcc_ne_nil 0 C hCne)
    have := mem_offsetsAcc_le_total C 0 _ hmem
    omega
  have hbnd : ∀ o ∈ offsetsAcc 0 C,
      o < 256 ^ widthForCount ((offsetsAcc 0 C).getLast?.getD 0) := by
    intro o ho
    have h1 := mem_offsetsAcc_le_getLast C 0 o ho
    have h2 := widthForCount_bound _ hL
    have h3 : 0 < 256 ^ widthForCount ((offsetsAcc 0 C).getLast?.getD 0) :=
      pow_pos (by norm_num) _
    omega
  have htabeq : table = (offsetsAcc 0 C).flatMap
      (beBytes (widthForCount ((offsetsAcc 0 C).getLast?.getD 0))) := by
    have hgen := generateOffsetTable_ok
      (widthForCount ((offsetsAcc 0 C).getLast?.getD 0))
      (widthForCount_cases ((offsetsAcc 0 C).getLast?.getD 0)) (offsetsAcc 0 C)
    rw [hgen] at htab
    simp only [Res.ok.injEq] at htab
    exact htab.symm
  rw [parsePlist, parseRaw]
  rw [show magic ++ C.flatten ++ table ++ generateTrailer
      (widthForCount ((offsetsAcc 0 C).getLast?.getD 0)) 1 memo.length 0
      (C.flatten.length + 8) =
    magic ++ (C.flatten ++ (table ++ generateTrailer
      (widthForCount ((offsetsAcc 0 C).getLast?.getD 0)) 1 memo.length 0
      (C.flatten.length + 8))) from by simp [List.append_assoc]]
  have hmemoffs : memo.length = (offsetsAcc 0 C).length := by
    rw [hmemolen, offsetsAcc_length]
  have hClpos : 0 < C.length := List.length_pos.mpr hCne
  rw [htabeq, hmemoffs] at hdec
  rw [htabeq, hmemoffs]
  have htake : (magic ++ (C.flatten ++ ((offsetsAcc 0 C).flatMap
      (beBytes (widthForCount ((offsetsAcc 0 C).getLast?.getD 0))) ++ generateTrailer
      (widthForCount ((offsetsAcc 0 C).getLast?.getD 0)) 1 (offsetsAcc 0 C).length 0
      (C.flatten.length + 8)))).take 8 = magic := by
    rw [show (8 : Nat) = magic.length from rfl]
    exact List.take_left magic _
  rw [parseBplistHeader, htake, if_pos rfl]
  simp only [Res.bind_ok]
  have hlen' : (magic ++ (C.flatten ++ ((offsetsAcc 0 C).flatMap
      (beBytes (widthForCount ((offsetsAcc 0 C).getLast?.getD 0))) ++ generateTrailer
      (widthForCount ((offsetsAcc 0 C).getLast?.getD 0)) 1 (offsetsAcc 0 C).length 0
      (C.flatten.length + 8)))).length =
      8 + (C.flatten.length + (((offsetsAcc 0 C).flatMap
        (beBytes (widthForCount ((offsetsAcc 0 C).getLast?.getD 0)))).length + 32)) := by
    simp [magic, generateTrailer_length]
    omega
  rw [if_neg (by rw [hlen']; omega)]
  simp only [Res.bind_ok]
  have hdropTB : (magic ++ (C.flatten ++ ((offsetsAcc 0 C).flatMap
      (beBytes (widthForCount ((offsetsAcc 0 C).getLast?.getD 0))) ++ generateTrailer
      (widthForCount ((offsetsAcc 0 C).getLast?.getD 0)) 1 (offsetsAcc 0 C).length 0
      (C.flatten.length + 8)))).drop
      ((magic ++ (C.flatten ++ ((offsetsAcc 0 C).flatMap
      (beBytes (widthForCount ((offsetsAcc 0 C).getLast?.getD 0))) ++ generateTrailer
      (widthForCount ((offsetsAcc 0 C).getLast?.getD 0)) 1 (offsetsAcc 0 C).length 0
      (C.flatten.length + 8)))).length - 32) = generateTrailer
      (widthForCount ((offsetsAcc 0 C).getLast?.getD 0)) 1 (offsetsAcc 0 C).length 0
      (C.flatten.length + 8) := by
    rw [show magic ++ (C.flatten ++ ((offsetsAcc 0 C).flatMap
      (beBytes (widthForCount ((offsetsAcc 0 C).getLast?.getD 0))) ++ generateTrailer
      (widthForCount ((offsetsAcc 0 C).getLast?.getD 0)) 1 (offsetsAcc 0 C).length 0
      (C.flatten.length + 8))) =
      (magic ++ C.flatten ++ (offsetsAcc 0 C).flatMap
        (beBytes (widthForCount ((offsetsAcc 0 C).getLast?.getD 0)))) ++ generateTrailer
      (widthForCount ((offsetsAcc 0 C).getLast?.getD 0)) 1 (offsetsAcc 0 C).length 0
      (C.flatten.length + 8) from by simp [List.append_assoc]]
    exact drop_last32 _ _ (generateTrailer_length _ _ _ _ _)
  rw [hdropTB]
  rw [parseTrailer_gen (widthForCount ((offsetsAcc 0 C).getLast?.getD 0)) 1
    (offsetsAcc 0 C).length 0 (C.flatten.length + 8)
    (by rw [offsetsAcc_length]; omega) (by norm_num) hstart64]
  simp only [Res.bind_ok]
  rw [if_pos (by rw [hlen']; omega)]
  simp only [Res.bind_ok]
  have hdropTBL : (magic ++ (C.flatten ++ ((offsetsAcc 0 C).flatMap
      (beBytes (widthForCount ((offsetsAcc 0 C).getLast?.getD 0))) ++ generateTrailer
      (widthForCount ((offsetsAcc 0 C).getLast?.getD 0)) 1 (offsetsAcc 0 C).length 0
      (C.flatten.length + 8)))).drop (C.flatten.length + 8) =
      (offsetsAcc 0 C).flatMap
        (beBytes (widthForCount ((offsetsAcc 0 C).getLast?.getD 0))) ++ generateTrailer
      (widthForCount ((offsetsAcc 0 C).getLast?.getD 0)) 1 (offsetsAcc 0 C).length 0
      (C.flatten.length + 8) := by
    rw [show magic ++ (C.flatten ++ ((offsetsAcc 0 C).flatMap
      (beBytes (widthForCount ((offsetsAcc 0 C).getLast?.getD 0))) ++ generateTrailer
      (widthForCount ((offsetsAcc 0 C).getLast?.getD 0)) 1 (offsetsAcc 0 C).length 0
      (C.flatten.length + 8))) =
      (magic ++ C.flatten) ++ ((offsetsAcc 0 C).flatMap
        (beBytes (widthForCount ((offsetsAcc 0 C).getLast?.getD 0))) ++ generateTrailer
      (widthForCount ((offsetsAcc 0 C).getLast?.getD 0)) 1 (offsetsAcc 0 C).length 0
      (C.flatten.length + 8)) from by simp [List.append_assoc]]
    rw [show C.flatten.length + 8 = (magic ++ C.flatten).length from by simp [magic]]
    exact List.drop_left _ _
  rw [hdropTBL]
  rw [parseOffsetTable_eq (widthForCount ((offsetsAcc 0 C).getLast?.getD 0))
    (widthForCount_cases ((offsetsAcc 0 C).getLast?.getD 0)) (offsetsAcc 0 C)
    (generateTrailer (widthForCount ((offsetsAcc 0 C).getLast?.getD 0)) 1
      (offsetsAcc 0 C).length 0 (C.flatten.length + 8)) hbnd]
  simp only [Res.bind_ok]
  have hoff0 : (offsetsAcc 0 C).get? 0 = some 8 := by
    rw [offsetsAcc_get? C 0 0 hClpos]
    simp
  rw [hoff0]
  dsimp only
  obtain ⟨rem, hrem⟩ := hdec
  rw [show posIdx C 0 = 8 from by simp [posIdx]] at hrem
  rw [show magic ++ (C.flatten ++ ((offsetsAcc 0 C).flatMap
      (beBytes (widthForCount ((offsetsAcc 0 C).getLast?.getD 0))) ++ generateTrailer
      (widthForCount ((offsetsAcc 0 C).getLast?.getD 0)) 1 (offsetsAcc 0 C).length 0
      (C.flatten.length + 8))) =
    magic ++ C.flatten ++ ((offsetsAcc 0 C).flatMap
      (beBytes (widthForCount ((offsetsAcc 0 C).getLast?.getD 0))) ++ generateTrailer
      (widthForCount ((offsetsAcc 0 C).getLast?.getD 0)) 1 (offsetsAcc 0 C).length 0
      (C.flatten.length + 8)) from by simp [List.append_assoc]]
  rw [hrem]
  simp only [Res.bind_ok]

/-- Witness: the amended C1 theorem applied to the dictionary
`{"a": 1, "b": 2}`, which decodes with its key order preserved. -/
theorem C1_amended_round_trip_witness :
    Wf dictAB ∧ writeTrace 10 dictAB = .ok (traceOf 10 dictAB) ∧
      (traceOf 10 dictAB).objects ≤ 255 ∧
      parsePlist 10 (traceOf 10 dictAB).out = .ok dictAB :=
  ⟨wf_dictAB, rfl, by decide,
    C1_amended_round_trip 10 dictAB (traceOf 10 dictAB) wf_dictAB rfl (by decide)⟩

end PlistModel
